import Mathlib

/-!
# Verification of the dbtree schema-graph model and rendering engine

This file gives a shallow embedding of the `graph` and `render` packages of
the dbtree repository (Go) and proves properties of the embedded code.

Modelling conventions:
* Go strings are Lean `String`s; Go's byte-wise `<` on strings is modelled by
  a codepoint-lexicographic comparison (they agree, since UTF-8 byte order
  coincides with codepoint order).
* A Go `map[K]V` is modelled as an association list together with its lookup
  function.  Go map iteration order is unspecified, so any property that holds
  for the rendered output must be invariant under permutation of the
  association list; this is made explicit where relevant.
* `sort.Slice` with a strict `<` comparator is modelled by insertion sort;
  on lists of pairwise-distinct strings every correct sort produces the same
  output, so the choice of algorithm is observationally faithful.
* The recursive tree construction is written with an explicit fuel parameter
  (modelling the call stack); a sufficiency theorem shows the chosen fuel
  never runs out, which is the formal counterpart of termination.
* Go pointers that may be `nil` become `Option`; fallible functions return
  `Except String`.
-/

namespace DbTree

/-! ## Lexicographic string order (Go `<` on strings) -/

/-- Strict lexicographic order on character lists, by codepoint. -/
def listLtB : List Char → List Char → Bool
  | _, [] => false
  | [], _ :: _ => true
  | a :: as, b :: bs =>
    if a.toNat < b.toNat then true
    else if a = b then listLtB as bs
    else false

/-- Go's `<` on strings. -/
def strLt (a b : String) : Bool := listLtB a.data b.data

/-- Non-strict companion of `strLt`. -/
def strLe (a b : String) : Bool := !(strLt b a)

/-- `strLe` as a relation, used for sorting. -/
def strLeR (a b : String) : Prop := strLe a b = true

instance : DecidableRel strLeR := fun a b =>
  inferInstanceAs (Decidable (strLe a b = true))

/-- Model of `sort.Slice(xs, func(i, j) { return xs[i] < xs[j] })`. -/
def sortStrings (l : List String) : List String := l.insertionSort strLeR

/-! ## Schema model (`database` package) -/

/-- `database.ConstraintKind`. -/
inductive ConstraintKind where
  | primaryKey
  | foreignKey
  | unique
  | check
deriving DecidableEq

/-- `database.Constraint`. -/
structure Constraint where
  kind : ConstraintKind
  columns : List String
  referenceTable : String
  referenceColumns : List String
  checkExpression : String
deriving DecidableEq

/-- `database.Column`. -/
structure Column where
  name : String
  type : String
  isNullable : Bool
  defaultValue : String
deriving DecidableEq

/-- `database.Table`. -/
structure Table where
  name : String
  columns : List Column
  constraints : List Constraint
deriving DecidableEq

/-- `database.Database`. -/
structure Database where
  name : String
  tables : List Table
deriving DecidableEq

/-! ## Graph model (`graph` package) -/

/-- `graph.ForeignKeyEdge`. -/
structure ForeignKeyEdge where
  fromTable : String
  toTable : String
  columns : List String
  referenceColumns : List String
deriving DecidableEq

/-- `graph.SchemaGraph`.  The Go field `Nodes` is a `map[TableName]*Table`;
it is modelled as an association list whose order stands for the
(unspecified) iteration order of the map. -/
structure SchemaGraph where
  databaseName : String
  nodes : List (String × Table)
  edges : List ForeignKeyEdge
deriving DecidableEq

/-- Lookup in the `Nodes` map (`g.Nodes[name]`; `none` models the nil pointer). -/
def mapFind? (m : List (String × Table)) (k : String) : Option Table :=
  match m with
  | [] => none
  | (k', v) :: rest => if k' = k then some v else mapFind? rest k

/-- Go map assignment `m[k] = v` (overwrite or append). -/
def mapInsert (m : List (String × Table)) (k : String) (v : Table) :
    List (String × Table) :=
  match m with
  | [] => [(k, v)]
  | (k', v') :: rest =>
    if k' = k then (k, v) :: rest else (k', v') :: mapInsert rest k v

/-- The first pass of `graph.Build`: populate the nodes map, one entry per
table, keyed by table name. -/
def buildNodes (db : Database) : List (String × Table) :=
  db.tables.foldl (fun m t => mapInsert m t.name t) []

/-- The edge `graph.Build` emits for one (table, constraint) pair: a
foreign-key constraint whose referenced table exists among the nodes yields an
edge, anything else yields nothing. -/
def buildEdgeOf (nodes : List (String × Table)) (t : Table) (c : Constraint) :
    Option ForeignKeyEdge :=
  if c.kind = ConstraintKind.foreignKey then
    if (mapFind? nodes c.referenceTable).isSome then
      some { fromTable := t.name, toTable := c.referenceTable,
             columns := c.columns, referenceColumns := c.referenceColumns }
    else none
  else none

/-- `graph.Build`: first pass registers one node per table, second pass emits one
edge per foreign-key constraint whose referenced table exists among the nodes. -/
def Build (db : Option Database) : Except String SchemaGraph :=
  match db with
  | none => Except.error "database is nil"
  | some db =>
    let nodes := buildNodes db
    let edges := db.tables.foldl (fun es t =>
      t.constraints.foldl (fun es c =>
        if c.kind = ConstraintKind.foreignKey then
          if (mapFind? nodes c.referenceTable).isSome then
            es ++ [{ fromTable := t.name, toTable := c.referenceTable,
                     columns := c.columns, referenceColumns := c.referenceColumns }]
          else es
        else es) es) []
    Except.ok { databaseName := db.name, nodes := nodes, edges := edges }

/-! ## Tree construction (`render.buildTree`, `render.buildTreeNode`) -/

/-- `render.TreeNode`.  `table` models the possibly-nil `*database.Table`. -/
inductive TreeNode where
  | mk (tableName : String) (table : Option Table) (children : List TreeNode)
      (isCircular : Bool) (alreadyShown : Bool)

def TreeNode.tableName : TreeNode → String
  | .mk n _ _ _ _ => n

def TreeNode.table : TreeNode → Option Table
  | .mk _ t _ _ _ => t

def TreeNode.children : TreeNode → List TreeNode
  | .mk _ _ cs _ _ => cs

def TreeNode.isCircular : TreeNode → Bool
  | .mk _ _ _ c _ => c

def TreeNode.alreadyShown : TreeNode → Bool
  | .mk _ _ _ _ s => s

/-- `render.buildAdjacencyList`, as the lookup function of the Go map it builds:
the initial loop over `g.Nodes` only seeds empty slices, then each edge
(from → to) appends `from` to the children of `to`, in edge order. -/
def buildAdjacencyList (g : SchemaGraph) (t : String) : List String :=
  (g.edges.filter (fun e => e.toTable = t)).map ForeignKeyEdge.fromTable

/-- `render.findRootTables`: the tables never appearing as the `FromTable` of an
edge, sorted lexicographically.  (The Go map `hasIncomingEdge` is exactly the
set of `FromTable`s of the edges.) -/
def findRootTables (g : SchemaGraph) : List String :=
  sortStrings ((g.nodes.map Prod.fst).filter
    (fun n => !((g.edges.map ForeignKeyEdge.fromTable).contains n)))

/-- `render.findOrphanTables`: unvisited tables touched by no edge at all,
sorted lexicographically. -/
def findOrphanTables (g : SchemaGraph) (visited : List String) : List String :=
  sortStrings ((g.nodes.map Prod.fst).filter
    (fun n => !(visited.contains n) &&
      !(g.edges.any (fun e => e.fromTable == n || e.toTable == n))))

/-- The sequential loop of `buildTree`/`buildTreeNode` over a list of child
names, threading the `visited` set; `rec` is the recursive call one fuel
level down. -/
def buildTreeChildren
    (rec : String → List String → List String → Option (TreeNode × List String)) :
    List String → List String → List String → Option (List TreeNode × List String)
  | [], _, visited => some ([], visited)
  | c :: rest, processing, visited =>
    match rec c processing visited with
    | none => none
    | some (t, v1) =>
      match buildTreeChildren rec rest processing v1 with
      | none => none
      | some (ts, v2) => some (t :: ts, v2)

/-- `render.buildTreeNode`.  The `processing` and `visited` maps become lists;
`processing` is restored on return in Go, so it is simply not returned here,
while `visited` only grows and is threaded through.  The fuel models the call
stack; `buildTreeNode_isSome` shows the fuel used by `buildTree` suffices. -/
def buildTreeNode (g : SchemaGraph) :
    Nat → String → List String → List String → Option (TreeNode × List String)
  | 0, _, _, _ => none
  | fuel + 1, tableName, processing, visited =>
    if tableName ∈ processing then
      some (TreeNode.mk tableName (mapFind? g.nodes tableName) [] true false, visited)
    else if tableName ∈ visited then
      some (TreeNode.mk tableName (mapFind? g.nodes tableName) [] false true, visited)
    else
      match buildTreeChildren (buildTreeNode g fuel)
          (buildAdjacencyList g tableName)
          (tableName :: processing) (tableName :: visited) with
      | none => none
      | some (ts, v2) =>
        some (TreeNode.mk tableName (mapFind? g.nodes tableName) ts false false, v2)

/-- Fuel that always suffices for `buildTreeNode` (see `buildTreeNode_isSome`). -/
def treeFuel (g : SchemaGraph) : Nat := g.nodes.length + g.edges.length + 1

/-- The `firstTable` selection loop of `buildTree` for the all-cyclic case,
including its use of `""` as the "unset" sentinel. -/
def firstTableName (g : SchemaGraph) : String :=
  g.nodes.foldl (fun acc p => if acc = "" ∨ strLt p.1 acc = true then p.1 else acc) ""

/-- The synthetic `orphan_tables` node with one plain child per orphan. -/
def orphanRootNode (g : SchemaGraph) (orphans : List String) : TreeNode :=
  TreeNode.mk "orphan_tables" none
    (orphans.map (fun o => TreeNode.mk o (mapFind? g.nodes o) [] false false)) false false

/-- Append one extra child to a node (`rootNode.Children = append(..., orphanRoot)`). -/
def appendChild : TreeNode → TreeNode → TreeNode
  | TreeNode.mk n t cs c a, extra => TreeNode.mk n t (cs ++ [extra]) c a

/-- `render.buildTree`. -/
def buildTree (g : SchemaGraph) : Option TreeNode :=
  let roots := findRootTables g
  let base : Option (TreeNode × List String) :=
    if roots = [] ∧ g.nodes ≠ [] then
      buildTreeNode g (treeFuel g) (firstTableName g) [] []
    else
      match buildTreeChildren (buildTreeNode g (treeFuel g)) roots [] [] with
      | none => none
      | some (ts, v) => some (TreeNode.mk g.databaseName none ts false false, v)
  match base with
  | none => none
  | some (rootNode, visited) =>
    let orphans := findOrphanTables g visited
    if orphans = [] then some rootNode
    else some (appendChild rootNode (orphanRootNode g orphans))

/-! ## Text rendering (`render.renderTreeAsText` and helpers) -/

/-- The `PRIMARY KEY` / `UNIQUE` tag of `render.appendConstraints` for one
constraint: fires when the column is the sole member of the constraint. -/
def pkUniqueTag (c : Constraint) (columnName : String) : String :=
  match c.columns with
  | [col0] =>
    if col0 = columnName then
      match c.kind with
      | ConstraintKind.primaryKey => " PRIMARY KEY"
      | ConstraintKind.unique => " UNIQUE"
      | _ => ""
    else ""
  | _ => ""

/-- The foreign-key part of `render.appendConstraints` for one constraint:
for every position `j` at which the column occurs among the constraint's
columns with `j < len(ReferenceColumns)`, append an arrow annotation. -/
def fkRefText (c : Constraint) (columnName : String) : String :=
  c.columns.enum.foldl (fun sb jcol =>
    if jcol.2 = columnName ∧ jcol.1 < c.referenceColumns.length then
      sb ++ " → " ++ c.referenceTable ++ "." ++ c.referenceColumns.getD jcol.1 ""
    else sb) ""

/-- `render.appendConstraints`, returning the string it appends to the builder. -/
def appendConstraints (table : Table) (columnName : String) : String :=
  table.constraints.foldl (fun sb c =>
    let sb := sb ++ pkUniqueTag c columnName
    if c.kind = ConstraintKind.foreignKey then sb ++ fkRefText c columnName else sb) ""

/-- `render.renderTableColumns`, returning the string it appends. -/
def renderTableColumns (table : Table) (pre : String) : String :=
  String.join (table.columns.enum.map (fun icol =>
    let connector := if icol.1 = table.columns.length - 1 then "└── " else "├── "
    pre ++ connector ++ icol.2.name ++ " (" ++ icol.2.type ++ ")"
      ++ appendConstraints table icol.2.name ++ "\n"))

/-- One bullet entry of the `orphan_tables` branch of `render.renderTextNode`. -/
def renderOrphanChild : TreeNode → String
  | TreeNode.mk name table _ _ _ =>
    "• " ++ name ++ "\n"
      ++ (match table with
          | some t => renderTableColumns t "  "
          | none => "")

mutual
/-- `render.renderTextNode`, returning the string it appends. -/
def renderTextNode : TreeNode → String → Bool → String
  | TreeNode.mk name table cs isCirc shown, pre, isLast =>
    if name = "orphan_tables" then
      "\nOrphan tables:\n" ++ String.join (cs.map renderOrphanChild)
    else
      let connector := if isLast then "└── " else "├── "
      let tag :=
        if isCirc then " (circular reference)"
        else if shown then " (see above)" else ""
      let line := pre ++ connector ++ name ++ tag ++ "\n"
      let details :=
        if isCirc = false ∧ shown = false then
          match table with
          | some t => renderTableColumns t (pre ++ (if isLast then "    " else "│   "))
          | none => ""
        else ""
      let childPart :=
        if isCirc = false ∧ shown = false then
          renderTextChildren cs (pre ++ (if isLast then "    " else "│   "))
        else ""
      line ++ details ++ childPart

/-- The `for i, child := range node.Children` loop of `renderTextNode`
(`isLast` is true exactly for the final child). -/
def renderTextChildren : List TreeNode → String → String
  | [], _ => ""
  | [c], pre => renderTextNode c pre true
  | c :: c2 :: rest, pre => renderTextNode c pre false ++ renderTextChildren (c2 :: rest) pre
end

/-- `render.renderTreeAsText`. -/
def renderTreeAsText (root : TreeNode) (databaseName : String) : String :=
  databaseName ++ "\n" ++ renderTextChildren root.children ""

/-! ## JSON tree rendering (`render.renderTreeAsJSON`) -/

/-- The per-column record built by the JSON renderers.  The Go `omitempty`
fields `Constraint` and `Reference` are kept as plain strings; the empty
string models an omitted field. -/
structure JsonColumn where
  name : String
  type : String
  constraint : String
  reference : String
deriving DecidableEq

/-- The per-table record of `renderTreeAsJSON` (`children` omitted when empty). -/
inductive JsonTable where
  | mk (name : String) (columns : List JsonColumn) (children : List JsonTable)

def JsonTable.name : JsonTable → String
  | .mk n _ _ => n

def JsonTable.columns : JsonTable → List JsonColumn
  | .mk _ cs _ => cs

def JsonTable.children : JsonTable → List JsonTable
  | .mk _ _ cs => cs

/-- The top-level record of `renderTreeAsJSON`. -/
structure JsonTreeResult where
  database : String
  tables : List JsonTable
  orphans : List JsonTable

/-- The constraint/reference assignment loop shared verbatim by
`renderTreeAsJSON` and `renderFlatAsJSON`: later assignments overwrite
earlier ones. -/
def jsonColumnOf (t : Table) (col : Column) : JsonColumn :=
  { name := col.name
    type := col.type
    constraint := t.constraints.foldl (fun acc c =>
      match c.columns with
      | [c0] =>
        if c0 = col.name then
          match c.kind with
          | ConstraintKind.primaryKey => "PRIMARY KEY"
          | ConstraintKind.unique => "UNIQUE"
          | _ => acc
        else acc
      | _ => acc) ""
    reference := t.constraints.foldl (fun acc c =>
      if c.kind = ConstraintKind.foreignKey then
        c.columns.enum.foldl (fun acc2 jcol =>
          if jcol.2 = col.name ∧ jcol.1 < c.referenceColumns.length then
            c.referenceTable ++ "." ++ c.referenceColumns.getD jcol.1 ""
          else acc2) acc
      else acc) "" }

mutual
/-- The `convertNode` closure of `renderTreeAsJSON`. -/
def convertNode : TreeNode → JsonTable
  | TreeNode.mk name table cs isCirc shown =>
    let columns :=
      if isCirc = false ∧ shown = false then
        match table with
        | some t => t.columns.map (jsonColumnOf t)
        | none => []
      else []
    let children :=
      if isCirc = false ∧ shown = false then convertChildren cs else []
    JsonTable.mk name columns children

def convertChildren : List TreeNode → List JsonTable
  | [] => []
  | c :: rest => convertNode c :: convertChildren rest
end

/-- The `Result` assembly of `renderTreeAsJSON`: children of the
`orphan_tables` node go to `orphans`, all other children to `tables`. -/
def jsonTreeResult (root : TreeNode) (databaseName : String) : JsonTreeResult :=
  root.children.foldl (fun res child =>
    if child.tableName = "orphan_tables" then
      { res with orphans := res.orphans ++ child.children.map convertNode }
    else
      { res with tables := res.tables ++ [convertNode child] })
    { database := databaseName, tables := [], orphans := [] }

/-! ## JSON serialization

The Go code serializes with `json.MarshalIndent(result, "", "  ")`.  The spec
treats JSON encoding mechanics as out of scope (only the output's shape is in
scope); the encoder below is a deterministic function of the result structures,
which is all the proved properties rely on. -/

def hexDigit (n : Nat) : String :=
  String.singleton (Char.ofNat (if n < 10 then 48 + n else 87 + n))

def jsonEscapeChar (c : Char) : String :=
  if c = '"' then "\\\""
  else if c = '\\' then "\\\\"
  else if c = '\n' then "\\n"
  else if c = '\r' then "\\r"
  else if c = '\t' then "\\t"
  else if c = '<' ∨ c = '>' ∨ c = '&' ∨ c.toNat < 32 then
    "\\u00" ++ hexDigit (c.toNat / 16 % 16) ++ hexDigit (c.toNat % 16)
  else String.singleton c

def jsonQuote (s : String) : String :=
  "\"" ++ String.join (s.data.map jsonEscapeChar) ++ "\""

def jsonColumnStr (c : JsonColumn) (ind : String) : String :=
  ind ++ "\x7b\n"
    ++ ind ++ "  \"name\": " ++ jsonQuote c.name ++ ",\n"
    ++ ind ++ "  \"type\": " ++ jsonQuote c.type
    ++ (if c.constraint = "" then "" else ",\n" ++ ind ++ "  \"constraint\": " ++ jsonQuote c.constraint)
    ++ (if c.reference = "" then "" else ",\n" ++ ind ++ "  \"reference\": " ++ jsonQuote c.reference)
    ++ "\n" ++ ind ++ "\x7d"

def jsonArrStr (elems : List String) (ind : String) : String :=
  match elems with
  | [] => "[]"
  | _ => "[\n" ++ String.intercalate ",\n" elems ++ "\n" ++ ind ++ "]"

mutual
def jsonTableStr : JsonTable → String → String
  | JsonTable.mk name columns children, ind =>
    ind ++ "\x7b\n"
      ++ ind ++ "  \"name\": " ++ jsonQuote name ++ ",\n"
      ++ ind ++ "  \"columns\": "
      ++ jsonArrStr (columns.map (fun c => jsonColumnStr c (ind ++ "    "))) (ind ++ "  ")
      ++ (match children with
          | [] => ""
          | _ => ",\n" ++ ind ++ "  \"children\": "
              ++ jsonArrStr (jsonTablesStr children (ind ++ "    ")) (ind ++ "  "))
      ++ "\n" ++ ind ++ "\x7d"

def jsonTablesStr : List JsonTable → String → List String
  | [], _ => []
  | t :: rest, ind => jsonTableStr t ind :: jsonTablesStr rest ind
end

/-- Serialization of the tree-shaped JSON result (`orphans` omitted when empty). -/
def jsonMarshalTree (r : JsonTreeResult) : String :=
  "\x7b\n"
    ++ "  \"database\": " ++ jsonQuote r.database ++ ",\n"
    ++ "  \"tables\": " ++ jsonArrStr (jsonTablesStr r.tables "    ") "  "
    ++ (match r.orphans with
        | [] => ""
        | _ => ",\n  \"orphans\": " ++ jsonArrStr (jsonTablesStr r.orphans "    ") "  ")
    ++ "\n\x7d"

/-! ## Flat rendering (`render.renderFlatAsText`, `render.renderFlatAsJSON`) -/

/-- `render.getSortedTableNames`. -/
def getSortedTableNames (g : SchemaGraph) : List String :=
  sortStrings (g.nodes.map Prod.fst)

/-- `render.renderFlatAsText`.  (The lookup `g.Nodes[tableName]` always
succeeds because the names range over the keys; the `none` branch is dead.) -/
def renderFlatAsText (g : SchemaGraph) : String :=
  "Database: " ++ g.databaseName ++ "\n"
    ++ "Tables: " ++ toString g.nodes.length ++ "\n\n"
    ++ String.join ((getSortedTableNames g).map (fun tn =>
        tn ++ "\n"
          ++ (match mapFind? g.nodes tn with
              | some t => String.join (t.columns.map (fun col =>
                  "  - " ++ col.name ++ " (" ++ col.type ++ ")"
                    ++ appendConstraints t col.name ++ "\n"))
              | none => "")
          ++ "\n"))

/-- The per-table record of `renderFlatAsJSON` (flat tables have no children). -/
structure JsonFlatTable where
  name : String
  columns : List JsonColumn
deriving DecidableEq

/-- The edge record of `renderFlatAsJSON`; the JSON keys are `from` and `to`. -/
structure JsonEdge where
  fromTable : String
  toTable : String
  columns : List String
  referenceColumns : List String
deriving DecidableEq

/-- The top-level record of `renderFlatAsJSON`. -/
structure JsonFlatResult where
  database : String
  tables : List JsonFlatTable
  edges : List JsonEdge
deriving DecidableEq

/-- The `Result` assembly of `renderFlatAsJSON`. -/
def flatJsonResult (g : SchemaGraph) : JsonFlatResult :=
  { database := g.databaseName
    tables := (getSortedTableNames g).foldl (fun acc tn =>
      match mapFind? g.nodes tn with
      | some t => acc ++ [{ name := tn, columns := t.columns.map (jsonColumnOf t) }]
      | none => acc ++ [{ name := tn, columns := [] }]) []
    edges := g.edges.map (fun e =>
      { fromTable := e.fromTable, toTable := e.toTable,
        columns := e.columns, referenceColumns := e.referenceColumns }) }

def jsonStrArr (l : List String) (ind : String) : String :=
  jsonArrStr (l.map (fun s => ind ++ "  " ++ jsonQuote s)) ind

def jsonEdgeStr (e : JsonEdge) (ind : String) : String :=
  ind ++ "\x7b\n"
    ++ ind ++ "  \"from\": " ++ jsonQuote e.fromTable ++ ",\n"
    ++ ind ++ "  \"to\": " ++ jsonQuote e.toTable ++ ",\n"
    ++ ind ++ "  \"columns\": " ++ jsonStrArr e.columns (ind ++ "  ") ++ ",\n"
    ++ ind ++ "  \"referenceColumns\": " ++ jsonStrArr e.referenceColumns (ind ++ "  ")
    ++ "\n" ++ ind ++ "\x7d"

def jsonFlatTableStr (t : JsonFlatTable) (ind : String) : String :=
  ind ++ "\x7b\n"
    ++ ind ++ "  \"name\": " ++ jsonQuote t.name ++ ",\n"
    ++ ind ++ "  \"columns\": "
    ++ jsonArrStr (t.columns.map (fun c => jsonColumnStr c (ind ++ "    "))) (ind ++ "  ")
    ++ "\n" ++ ind ++ "\x7d"

/-- Serialization of the flat JSON result. -/
def jsonMarshalFlat (r : JsonFlatResult) : String :=
  "\x7b\n"
    ++ "  \"database\": " ++ jsonQuote r.database ++ ",\n"
    ++ "  \"tables\": " ++ jsonArrStr (r.tables.map (fun t => jsonFlatTableStr t "    ")) "  " ++ ",\n"
    ++ "  \"edges\": " ++ jsonArrStr (r.edges.map (fun e => jsonEdgeStr e "    ")) "  "
    ++ "\n\x7d"

/-! ## Diagram rendering (`render.renderGraphAsText`, `render.generateD2Diagram`) -/

/-- The constraint-tag list of a column in `generateD2Diagram` (the
`isInConstraint` scan followed by the kind switch). -/
def d2ColumnConstraints (t : Table) (col : Column) : List String :=
  t.constraints.foldl (fun acc c =>
    if c.columns.contains col.name then
      match c.kind with
      | ConstraintKind.primaryKey => acc ++ ["PK"]
      | ConstraintKind.unique => acc ++ ["UNIQUE"]
      | ConstraintKind.foreignKey => acc ++ ["FK"]
      | _ => acc
    else acc) []

/-- `render.generateD2Diagram`: table definitions in sorted-name order, then
one relationship line per (column, reference-column) pair of every edge. -/
def generateD2Diagram (g : SchemaGraph) : String :=
  "direction: left\n\n"
    ++ String.join ((getSortedTableNames g).map (fun tn =>
        match mapFind? g.nodes tn with
        | none => ""
        | some table =>
          tn ++ ": \x7b\n" ++ "  shape: sql_table\n"
            ++ String.join (table.columns.map (fun col =>
                "  " ++ col.name ++ ": " ++ col.type
                  ++ (let cs := d2ColumnConstraints table col
                      if cs.isEmpty then ""
                      else " \x7bconstraint: " ++ String.intercalate ", " cs ++ "\x7d")
                  ++ "\n"))
            ++ "\x7d\n\n"))
    ++ String.join (g.edges.map (fun e =>
        String.join (e.columns.enum.map (fun icol =>
          if icol.1 < e.referenceColumns.length then
            e.fromTable ++ "." ++ icol.2 ++ " -> "
              ++ e.toTable ++ "." ++ e.referenceColumns.getD icol.1 "" ++ "\n"
          else ""))))

/-- `render.renderGraphAsText` hands the generated D2 source to the external
`viveknathani/d2` pipeline (text ruler, ELK layout, ASCII renderer), which is
not part of this repository; that pipeline is abstracted as the `d2compile`
parameter. -/
def renderGraphAsText (d2compile : String → Except String String)
    (g : SchemaGraph) : Except String String :=
  d2compile (generateD2Diagram g)

/-! ## The `Render` entry point -/

def FormatText : String := "text"
def FormatJSON : String := "json"
def ShapeTree : String := "tree"
def ShapeFlat : String := "flat"
def ShapeGraph : String := "graph"

/-- `render.Render`.  `Format` and `Shape` are string types in Go, so arbitrary
strings are admissible.  The tree branches pattern-match on the fueled
`buildTree`; the `none` branches are provably unreachable
(`buildTree_isSome`). -/
def Render (d2compile : String → Except String String)
    (g : Option SchemaGraph) (format shape : String) : Except String String :=
  match g with
  | none => Except.error "schema graph cannot be nil"
  | some g =>
    if format = FormatText ∧ shape = ShapeTree then
      match buildTree g with
      | some tree => Except.ok (renderTreeAsText tree g.databaseName)
      | none => Except.error "tree construction ran out of fuel"
    else if format = FormatJSON ∧ shape = ShapeTree then
      match buildTree g with
      | some tree => Except.ok (jsonMarshalTree (jsonTreeResult tree g.databaseName))
      | none => Except.error "tree construction ran out of fuel"
    else if format = FormatText ∧ shape = ShapeFlat then
      Except.ok (renderFlatAsText g)
    else if format = FormatJSON ∧ shape = ShapeFlat then
      Except.ok (jsonMarshalFlat (flatJsonResult g))
    else if format = FormatText ∧ shape = ShapeGraph then
      renderGraphAsText d2compile g
    else if format = FormatJSON ∧ shape = ShapeGraph then
      Except.error "graph shape is only supported with text format"
    else
      Except.error ("unsupported format/shape combination: " ++ format ++ "/" ++ shape)


/-! ## Auxiliary notions used by the theorems -/

/-- One display step of the tree: `y` is a child of `x` iff some edge points
from `y` to `x` (the table holding the foreign key appears under the table it
references). -/
def childStep (g : SchemaGraph) (x y : String) : Prop :=
  y ∈ buildAdjacencyList g x

instance (g : SchemaGraph) : DecidableRel (childStep g) := fun x y =>
  inferInstanceAs (Decidable (y ∈ buildAdjacencyList g x))

/-- A string `pat` is mentioned in `s` when it occurs contiguously in `s`. -/
def Mention (s pat : String) : Prop := pat.data <:+: s.data

instance (s pat : String) : Decidable (Mention s pat) :=
  inferInstanceAs (Decidable (pat.data <:+: s.data))

mutual
/-- Does a table name occur anywhere in the tree? -/
def TreeNode.hasName : TreeNode → String → Bool
  | TreeNode.mk n _ cs _ _, x => n == x || TreeNode.forestHasName cs x

def TreeNode.forestHasName : List TreeNode → String → Bool
  | [], _ => false
  | c :: rest, x => TreeNode.hasName c x || TreeNode.forestHasName rest x
end

mutual
/-- Does the tree contain a node flagged `isCircular`? -/
def TreeNode.hasCirc : TreeNode → Bool
  | TreeNode.mk _ _ cs c _ => c || TreeNode.forestHasCirc cs

def TreeNode.forestHasCirc : List TreeNode → Bool
  | [] => false
  | c :: rest => TreeNode.hasCirc c || TreeNode.forestHasCirc rest
end

mutual
/-- Does the tree contain a node named `x` that is flagged `isCircular`? -/
def TreeNode.hasCircN : TreeNode → String → Bool
  | TreeNode.mk n _ cs c _, x => (c && n == x) || TreeNode.forestHasCircN cs x

def TreeNode.forestHasCircN : List TreeNode → String → Bool
  | [], _ => false
  | c :: rest, x => TreeNode.hasCircN c x || TreeNode.forestHasCircN rest x
end

mutual
/-- Structural sanity of rendered trees: no table node usurps the
`orphan_tables` name, and flagged nodes have no children (both are invariants
of `buildTreeNode`). -/
def TreeNode.renderSafe : TreeNode → Bool
  | TreeNode.mk n _ cs c s =>
    n != "orphan_tables" && (!(c || s) || cs.isEmpty) && TreeNode.forestRenderSafe cs

def TreeNode.forestRenderSafe : List TreeNode → Bool
  | [] => true
  | c :: rest => TreeNode.renderSafe c && TreeNode.forestRenderSafe rest
end

mutual
/-- Mutual induction principle for `TreeNode` (node part). -/
def TreeNode.indNode {P : TreeNode → Prop} {Q : List TreeNode → Prop}
    (hmk : ∀ n t cs c s, Q cs → P (TreeNode.mk n t cs c s))
    (hnil : Q []) (hcons : ∀ c rest, P c → Q rest → Q (c :: rest)) :
    ∀ t, P t
  | TreeNode.mk n t cs c s => hmk n t cs c s (TreeNode.indForest hmk hnil hcons cs)

/-- Mutual induction principle for `TreeNode` (forest part). -/
def TreeNode.indForest {P : TreeNode → Prop} {Q : List TreeNode → Prop}
    (hmk : ∀ n t cs c s, Q cs → P (TreeNode.mk n t cs c s))
    (hnil : Q []) (hcons : ∀ c rest, P c → Q rest → Q (c :: rest)) :
    ∀ l, Q l
  | [] => hnil
  | c :: rest =>
    hcons c rest (TreeNode.indNode hmk hnil hcons c) (TreeNode.indForest hmk hnil hcons rest)
end

mutual
/-- Does a table name occur anywhere in a JSON table tree? -/
def JsonTable.hasName : JsonTable → String → Bool
  | JsonTable.mk n _ cs, x => n == x || JsonTable.forestHasName cs x

def JsonTable.forestHasName : List JsonTable → String → Bool
  | [], _ => false
  | t :: rest, x => JsonTable.hasName t x || JsonTable.forestHasName rest x
end

/-! ## The spec's diagram-ordering algorithm (for comparison with the code)

The spec describes the diagram ordering as Kahn's algorithm per connected
component.  No such algorithm exists in the repository (`generateD2Diagram`
emits tables in sorted-name order and delegates layout to the external D2
library), so the following definitions are deliberately modelled from the
spec's words, to be compared with the code's behaviour. -/

/-- Modelled from the spec: the number of "unresolved outgoing references" of
`t` — edges of the component's induced subgraph whose `from` table is `t` and
whose target has not been removed yet ("in-degree counted on the edge's from
table"). -/
def kahnIndegSpec (edges : List ForeignKeyEdge) (comp removed : List String)
    (t : String) : Nat :=
  (edges.filter (fun e =>
    e.fromTable = t ∧ e.toTable ∈ comp ∧ e.fromTable ∈ comp ∧ e.toTable ∉ removed)).length

/-- Modelled from the spec: Kahn's algorithm with the ready queue re-sorted
lexicographically after every removal, and any tables left over after the
queue drains (a residual cycle) appended in their original component order. -/
def kahnSortSpec (edges : List ForeignKeyEdge) (comp : List String) :
    Nat → List String → List String
  | 0, removed => comp.filter (fun t => t ∉ removed)
  | fuel + 1, removed =>
    let ready := sortStrings (comp.filter
      (fun t => t ∉ removed ∧ kahnIndegSpec edges comp removed t = 0))
    match ready with
    | [] => comp.filter (fun t => t ∉ removed)
    | u :: _ => u :: kahnSortSpec edges comp fuel (u :: removed)

/-! ## Concrete schemas used by the test-style theorems -/

/-- A primary-key constraint on a single column. -/
def pkOn (col : String) : Constraint :=
  { kind := ConstraintKind.primaryKey, columns := [col], referenceTable := "",
    referenceColumns := [], checkExpression := "" }

/-- A foreign-key constraint. -/
def fkOn (cols : List String) (refTable : String) (refCols : List String) : Constraint :=
  { kind := ConstraintKind.foreignKey, columns := cols, referenceTable := refTable,
    referenceColumns := refCols, checkExpression := "" }

/-- An `int` column. -/
def intCol (n : String) : Column :=
  { name := n, type := "int", isNullable := false, defaultValue := "" }

/-- Scenario A of the spec: two mutually referencing tables. -/
def deptEmpDb : Database :=
  { name := "circular_db"
    tables := [
      { name := "departments"
        columns := [intCol "id", intCol "manager_id"]
        constraints := [pkOn "id", fkOn ["manager_id"] "employees" ["id"]] },
      { name := "employees"
        columns := [intCol "id", intCol "dept_id"]
        constraints := [pkOn "id", fkOn ["dept_id"] "departments" ["id"]] }] }

/-- The schema graph `graph.Build` produces for `deptEmpDb`
(`Build_deptEmpDb` checks this). -/
def deptEmpGraph : SchemaGraph :=
  { databaseName := "circular_db"
    nodes := [
      ("departments", { name := "departments"
                        columns := [intCol "id", intCol "manager_id"]
                        constraints := [pkOn "id", fkOn ["manager_id"] "employees" ["id"]] }),
      ("employees", { name := "employees"
                      columns := [intCol "id", intCol "dept_id"]
                      constraints := [pkOn "id", fkOn ["dept_id"] "departments" ["id"]] })]
    edges := [
      { fromTable := "departments", toTable := "employees",
        columns := ["manager_id"], referenceColumns := ["id"] },
      { fromTable := "employees", toTable := "departments",
        columns := ["dept_id"], referenceColumns := ["id"] }] }

/-- A table with no columns or constraints, for small counterexample graphs. -/
def bareTable (n : String) : Table := { name := n, columns := [], constraints := [] }

/-- An edge with no column lists, for small counterexample graphs. -/
def bareEdge (a b : String) : ForeignKeyEdge :=
  { fromTable := a, toTable := b, columns := [], referenceColumns := [] }

/-- A root `r` plus a two-table cycle `a ↔ b` that is unreachable from `r`:
the known §9 edge case (tables with edges but unreachable from any root). -/
def unreachableCycleGraph : SchemaGraph :=
  { databaseName := "db"
    nodes := [("r", bareTable "r"), ("a", bareTable "a"), ("b", bareTable "b")]
    edges := [bareEdge "a" "b", bareEdge "b" "a"] }

/-- An all-cyclic graph containing a table named `""`, in one nodes order. -/
def emptyNameGraph1 : SchemaGraph :=
  { databaseName := "db"
    nodes := [("", bareTable ""), ("z", bareTable "z")]
    edges := [bareEdge "" "z", bareEdge "z" ""] }

/-- The same graph with the nodes association list permuted (a different map
iteration order). -/
def emptyNameGraph2 : SchemaGraph :=
  { databaseName := "db"
    nodes := [("z", bareTable "z"), ("", bareTable "")]
    edges := [bareEdge "" "z", bareEdge "z" ""] }

/-- A root `r` with a reachable two-table cycle: `a` references both `r` and
`b`, and `b` references `a`. -/
def rootedCycleGraph : SchemaGraph :=
  { databaseName := "db"
    nodes := [("r", bareTable "r"), ("a", bareTable "a"), ("b", bareTable "b")]
    edges := [bareEdge "a" "r", bareEdge "a" "b", bareEdge "b" "a"] }

/-- A foreign key with more local columns than reference columns (column `y`
at position 1 has no matching reference column). -/
def lopsidedTable : Table :=
  { name := "t"
    columns := [intCol "x", intCol "y"]
    constraints := [fkOn ["x", "y"] "u" ["uid"]] }

/-- Graph holding `lopsidedTable` together with its reference target. -/
def lopsidedGraph : SchemaGraph :=
  { databaseName := "db"
    nodes := [("t", lopsidedTable), ("u", { name := "u", columns := [intCol "uid"]
                                            constraints := [pkOn "uid"] })]
    edges := [{ fromTable := "t", toTable := "u", columns := ["x", "y"],
                referenceColumns := ["uid"] }] }

/-- Two tables with one edge `a → b`: the code emits `a` before `b`, while the
spec's Kahn ordering puts `b` first. -/
def twoTableGraph : SchemaGraph :=
  { databaseName := "db"
    nodes := [("a", bareTable "a"), ("b", bareTable "b")]
    edges := [bareEdge "a" "b"] }




/-- A database with one valid foreign key (`posts → users`) and one dangling
foreign key (`posts → ghosts`, a table that does not exist). -/
def dbDangling : Database :=
  { name := "test_db"
    tables := [
      { name := "users", columns := [intCol "id"], constraints := [pkOn "id"] },
      { name := "posts"
        columns := [intCol "id", intCol "user_id", intCol "ghost_id"]
        constraints := [pkOn "id", fkOn ["user_id"] "users" ["id"],
          fkOn ["ghost_id"] "ghosts" ["gid"]] }] }

/-- A two-table graph in one nodes order (nonempty table names). -/
def permGraphA : SchemaGraph :=
  { databaseName := "pdb"
    nodes := [("a", bareTable "a"), ("b", bareTable "b")]
    edges := [bareEdge "a" "b"] }

/-- The same graph with the nodes association list permuted. -/
def permGraphB : SchemaGraph :=
  { databaseName := "pdb"
    nodes := [("b", bareTable "b"), ("a", bareTable "a")]
    edges := [bareEdge "a" "b"] }

/-- The number of names in `univ` not yet visited; the termination measure of
the tree traversal. -/
def unvisitedCount (univ vis : List String) : Nat :=
  (univ.filter (fun x => decide (x ∉ vis))).length

/-- All names the traversal can ever reach: the map keys plus the `FromTable`
of every edge (children always come from the latter). -/
def traversalUniv (g : SchemaGraph) : List String :=
  g.nodes.map Prod.fst ++ g.edges.map ForeignKeyEdge.fromTable

/-! # Theorems

## Lexicographic-order lemmas -/

theorem char_eq_of_toNat_eq {a b : Char} (h : a.toNat = b.toNat) : a = b :=
  Char.eq_of_val_eq (UInt32.ext h)

theorem listLtB_irrefl (l : List Char) : listLtB l l = false := by
  induction l with
  | nil => rfl
  | cons a as ih => simp [listLtB, ih]

theorem listLtB_trans : ∀ {a b c : List Char},
    listLtB a b = true → listLtB b c = true → listLtB a c = true := by
  intro a
  induction a with
  | nil =>
    intro b c hab hbc
    cases b with
    | nil => simp [listLtB] at hab
    | cons y bs =>
      cases c with
      | nil => simp [listLtB] at hbc
      | cons z cs => simp [listLtB]
  | cons x as ih =>
    intro b c hab hbc
    cases b with
    | nil => simp [listLtB] at hab
    | cons y bs =>
      cases c with
      | nil => simp [listLtB] at hbc
      | cons z cs =>
        simp only [listLtB] at hab hbc ⊢
        split at hab
        · -- x < y
          rename_i hxy
          split at hbc
          · rename_i hyz
            simp [Nat.lt_trans hxy hyz]
          · split at hbc
            · rename_i hyz
              subst hyz
              simp [hxy]
            · exact absurd hbc (by simp)
        · split at hab
          · -- x = y
            rename_i hxy
            subst hxy
            split at hbc
            · rename_i hyz
              simp [hyz]
            · split at hbc
              · rename_i hyz
                subst hyz
                simp only [if_pos rfl]
                split
                · rfl
                · exact ih hab hbc
              · exact absurd hbc (by simp)
          · exact absurd hab (by simp)

theorem listLtB_conn : ∀ {a b : List Char},
    listLtB a b = false → listLtB b a = false → a = b := by
  intro a
  induction a with
  | nil =>
    intro b hab _
    cases b with
    | nil => rfl
    | cons y bs => simp [listLtB] at hab
  | cons x as ih =>
    intro b hab hba
    cases b with
    | nil => simp [listLtB] at hba
    | cons y bs =>
      simp only [listLtB] at hab hba
      split at hab
      · exact absurd hab (by simp)
      · split at hab
        · rename_i hxy
          subst hxy
          split at hba
          · rename_i h; exact absurd h (Nat.lt_irrefl _)
          · split at hba
            · rw [ih hab hba]
            · rename_i h; exact absurd rfl h
        · rename_i hnlt hne
          split at hba
          · exact absurd hba (by simp)
          · split at hba
            · rename_i h; exact absurd h.symm hne
            · rename_i hnlt2 _
              exact absurd (char_eq_of_toNat_eq
                (Nat.le_antisymm (Nat.le_of_not_lt hnlt2) (Nat.le_of_not_lt hnlt))) hne

theorem strLt_irrefl (a : String) : strLt a a = false := listLtB_irrefl _

theorem strLt_trans {a b c : String} (h1 : strLt a b = true) (h2 : strLt b c = true) :
    strLt a c = true := listLtB_trans h1 h2

theorem strLt_conn {a b : String} (h1 : strLt a b = false) (h2 : strLt b a = false) :
    a = b := String.ext (listLtB_conn h1 h2)

theorem strLe_iff {a b : String} : strLe a b = true ↔ strLt b a = false := by
  simp [strLe]

instance : IsTrans String strLeR := by
  constructor
  intro a b c hab hbc
  rw [strLeR, strLe_iff] at hab hbc ⊢
  cases hbc' : strLt b c with
  | true =>
    cases h : strLt c a with
    | false => rfl
    | true =>
      have := strLt_trans hbc' h
      simp [this] at hab
  | false =>
    have : b = c := strLt_conn hbc' hbc
    subst this
    exact hab

instance : IsTotal String strLeR := by
  constructor
  intro a b
  rw [strLeR, strLeR, strLe_iff, strLe_iff]
  by_contra h
  push_neg at h
  obtain ⟨h1, h2⟩ := h
  replace h1 : strLt b a = true := by
    cases hc : strLt b a with
    | false => exact absurd hc h1
    | true => rfl
  replace h2 : strLt a b = true := by
    cases hc : strLt a b with
    | false => exact absurd hc h2
    | true => rfl
  have := strLt_trans h1 h2
  rw [strLt_irrefl] at this
  exact Bool.false_ne_true this

instance : IsAntisymm String strLeR := by
  constructor
  intro a b hab hba
  rw [strLeR, strLe_iff] at hab hba
  exact strLt_conn hba hab


theorem sortStrings_perm (l : List String) : (sortStrings l).Perm l :=
  List.perm_insertionSort _ _

theorem sortStrings_sorted (l : List String) : List.Sorted strLeR (sortStrings l) :=
  List.sorted_insertionSort _ _

/-- Two permutations of the same multiset of strings sort to the same list. -/
theorem sortStrings_eq_of_perm {l₁ l₂ : List String} (h : l₁.Perm l₂) :
    sortStrings l₁ = sortStrings l₂ :=
  List.eq_of_perm_of_sorted
    ((sortStrings_perm l₁).trans (h.trans (sortStrings_perm l₂).symm))
    (sortStrings_sorted l₁) (sortStrings_sorted l₂)


/-! ## Mention lemmas -/

theorem mention_refl (x : String) : Mention x x :=
  ⟨[], [], by simp⟩

theorem mention_append_left {s x : String} (h : Mention s x) (r : String) :
    Mention (s ++ r) x := by
  obtain ⟨u, v, huv⟩ := h
  exact ⟨u, v ++ r.data, by simp [String.data_append, ← huv, List.append_assoc]⟩

theorem mention_append_right {s x : String} (h : Mention s x) (l : String) :
    Mention (l ++ s) x := by
  obtain ⟨u, v, huv⟩ := h
  exact ⟨l.data ++ u, v, by simp [String.data_append, ← huv, List.append_assoc]⟩

theorem mention_append_self (a x : String) : Mention (a ++ x) x :=
  mention_append_right (mention_refl x) a

/-! ## Basic lemmas about the tree construction -/

theorem buildTreeChildren_mono
    {rec : String → List String → List String → Option (TreeNode × List String)}
    (hrec : ∀ c proc vis t v', rec c proc vis = some (t, v') → vis ⊆ v') :
    ∀ cs proc vis ts v',
      buildTreeChildren rec cs proc vis = some (ts, v') → vis ⊆ v' := by
  intro cs
  induction cs with
  | nil =>
    intro proc vis ts v' h
    simp only [buildTreeChildren, Option.some.injEq, Prod.mk.injEq] at h
    rw [← h.2]
    exact fun a ha => ha
  | cons c rest ih =>
    intro proc vis ts v' h
    cases hc : rec c proc vis with
    | none => simp [buildTreeChildren, hc] at h
    | some tv1 =>
      obtain ⟨t1, v1⟩ := tv1
      cases hr : buildTreeChildren rec rest proc v1 with
      | none => simp [buildTreeChildren, hc, hr] at h
      | some tsv2 =>
        obtain ⟨ts2, v2⟩ := tsv2
        simp only [buildTreeChildren, hc, hr, Option.some.injEq, Prod.mk.injEq] at h
        rw [← h.2]
        exact List.Subset.trans (hrec c proc vis t1 v1 hc) (ih proc v1 ts2 v2 hr)

theorem buildTreeNode_mono (g : SchemaGraph) :
    ∀ fuel name proc vis t v',
      buildTreeNode g fuel name proc vis = some (t, v') → vis ⊆ v' := by
  intro fuel
  induction fuel with
  | zero => intro name proc vis t v' h; exact absurd h (by simp [buildTreeNode])
  | succ n ih =>
    intro name proc vis t v' h
    simp only [buildTreeNode] at h
    split at h
    · simp only [Option.some.injEq, Prod.mk.injEq] at h
      rw [← h.2]
      exact fun a ha => ha
    · split at h
      · simp only [Option.some.injEq, Prod.mk.injEq] at h
        rw [← h.2]
        exact fun a ha => ha
      · cases hc : buildTreeChildren (buildTreeNode g n)
            (buildAdjacencyList g name) (name :: proc) (name :: vis) with
        | none => rw [hc] at h; exact absurd h (by simp)
        | some tsv =>
          obtain ⟨ts, v2⟩ := tsv
          rw [hc] at h
          simp only [Option.some.injEq, Prod.mk.injEq] at h
          rw [← h.2]
          intro a ha
          exact buildTreeChildren_mono (fun c p v t v2 hcall => ih c p v t v2 hcall)
            _ _ _ _ _ hc (List.mem_cons_of_mem _ ha)

theorem buildTreeNode_tableName (g : SchemaGraph) :
    ∀ fuel name proc vis t v',
      buildTreeNode g fuel name proc vis = some (t, v') → t.tableName = name := by
  intro fuel name proc vis t v' h
  cases fuel with
  | zero => exact absurd h (by simp [buildTreeNode])
  | succ n =>
    simp only [buildTreeNode] at h
    split at h
    · simp only [Option.some.injEq, Prod.mk.injEq] at h
      rw [← h.1, TreeNode.tableName]
    · split at h
      · simp only [Option.some.injEq, Prod.mk.injEq] at h
        rw [← h.1, TreeNode.tableName]
      · cases hc : buildTreeChildren (buildTreeNode g n)
            (buildAdjacencyList g name) (name :: proc) (name :: vis) with
        | none => rw [hc] at h; exact absurd h (by simp)
        | some tsv =>
          obtain ⟨ts, v2⟩ := tsv
          rw [hc] at h
          simp only [Option.some.injEq, Prod.mk.injEq] at h
          rw [← h.1, TreeNode.tableName]

theorem buildTreeChildren_tableNames
    {rec : String → List String → List String → Option (TreeNode × List String)}
    (hrec : ∀ c proc vis t v', rec c proc vis = some (t, v') → t.tableName = c) :
    ∀ cs proc vis ts v',
      buildTreeChildren rec cs proc vis = some (ts, v') →
      ts.map TreeNode.tableName = cs := by
  intro cs
  induction cs with
  | nil =>
    intro proc vis ts v' h
    simp only [buildTreeChildren, Option.some.injEq, Prod.mk.injEq] at h
    rw [← h.1]
    rfl
  | cons c rest ih =>
    intro proc vis ts v' h
    cases hc : rec c proc vis with
    | none => simp [buildTreeChildren, hc] at h
    | some tv1 =>
      obtain ⟨t1, v1⟩ := tv1
      cases hr : buildTreeChildren rec rest proc v1 with
      | none => simp [buildTreeChildren, hc, hr] at h
      | some tsv2 =>
        obtain ⟨ts2, v2⟩ := tsv2
        simp only [buildTreeChildren, hc, hr, Option.some.injEq, Prod.mk.injEq] at h
        rw [← h.1]
        simp [hrec c proc vis t1 v1 hc, ih proc v1 ts2 v2 hr]

theorem buildAdjacencyList_from {g : SchemaGraph} {x y : String}
    (h : y ∈ buildAdjacencyList g x) : ∃ e ∈ g.edges, e.fromTable = y := by
  simp only [buildAdjacencyList, List.mem_map, List.mem_filter] at h
  obtain ⟨e, ⟨he, _⟩, rfl⟩ := h
  exact ⟨e, he, rfl⟩

theorem buildTreeChildren_closed {g : SchemaGraph}
    {rec : String → List String → List String → Option (TreeNode × List String)}
    (hrecmono : ∀ c proc vis t v', rec c proc vis = some (t, v') → vis ⊆ v')
    (hrec : ∀ c proc vis t v', proc ⊆ vis → rec c proc vis = some (t, v') →
      c ∈ v' ∧ (∀ x ∈ v', x ∉ vis → ∀ y ∈ buildAdjacencyList g x, y ∈ v')) :
    ∀ cs proc vis ts v', proc ⊆ vis →
      buildTreeChildren rec cs proc vis = some (ts, v') →
      (∀ c ∈ cs, c ∈ v') ∧
        (∀ x ∈ v', x ∉ vis → ∀ y ∈ buildAdjacencyList g x, y ∈ v') := by
  intro cs
  induction cs with
  | nil =>
    intro proc vis ts v' hpv h
    simp only [buildTreeChildren, Option.some.injEq, Prod.mk.injEq] at h
    rw [← h.2]
    exact ⟨by simp, fun x hx hx2 => absurd hx hx2⟩
  | cons c rest ih =>
    intro proc vis ts v' hpv h
    cases hc : rec c proc vis with
    | none => simp [buildTreeChildren, hc] at h
    | some tv1 =>
      obtain ⟨t1, v1⟩ := tv1
      cases hr : buildTreeChildren rec rest proc v1 with
      | none => simp [buildTreeChildren, hc, hr] at h
      | some tsv2 =>
        obtain ⟨ts2, v2⟩ := tsv2
        simp only [buildTreeChildren, hc, hr, Option.some.injEq, Prod.mk.injEq] at h
        rw [← h.2]
        have hm1 : vis ⊆ v1 := hrecmono c proc vis t1 v1 hc
        have hm2 : v1 ⊆ v2 := buildTreeChildren_mono hrecmono rest proc v1 ts2 v2 hr
        have hfst := hrec c proc vis t1 v1 hpv hc
        have hrest := ih proc v1 ts2 v2 (List.Subset.trans hpv hm1) hr
        constructor
        · intro a ha
          rcases List.mem_cons.mp ha with rfl | ha2
          · exact hm2 hfst.1
          · exact hrest.1 a ha2
        · intro x hx hxvis y hy
          by_cases hxv1 : x ∈ v1
          · exact hm2 (hfst.2 x hxv1 hxvis y hy)
          · exact hrest.2 x hx hxv1 y hy

theorem buildTreeNode_closed (g : SchemaGraph) :
    ∀ fuel name proc vis t v', proc ⊆ vis →
      buildTreeNode g fuel name proc vis = some (t, v') →
      name ∈ v' ∧
        (∀ x ∈ v', x ∉ vis → ∀ y ∈ buildAdjacencyList g x, y ∈ v') := by
  intro fuel
  induction fuel with
  | zero => intro name proc vis t v' _ h; exact absurd h (by simp [buildTreeNode])
  | succ n ih =>
    intro name proc vis t v' hpv h
    simp only [buildTreeNode] at h
    split at h
    · rename_i hinproc
      simp only [Option.some.injEq, Prod.mk.injEq] at h
      rw [← h.2]
      exact ⟨hpv hinproc, fun x hx hx2 => absurd hx hx2⟩
    · split at h
      · rename_i hinvis
        simp only [Option.some.injEq, Prod.mk.injEq] at h
        rw [← h.2]
        exact ⟨hinvis, fun x hx hx2 => absurd hx hx2⟩
      · rename_i hninproc hninvis
        cases hc : buildTreeChildren (buildTreeNode g n)
            (buildAdjacencyList g name) (name :: proc) (name :: vis) with
        | none => rw [hc] at h; exact absurd h (by simp)
        | some tsv =>
          obtain ⟨ts, v2⟩ := tsv
          rw [hc] at h
          simp only [Option.some.injEq, Prod.mk.injEq] at h
          rw [← h.2]
          have hpv2 : name :: proc ⊆ name :: vis := List.cons_subset_cons _ hpv
          have hlist := buildTreeChildren_closed (g := g)
            (fun c p v t2 w hcall => buildTreeNode_mono g n c p v t2 w hcall)
            (fun c p v t2 w hp hcall => ih c p v t2 w hp hcall)
            (buildAdjacencyList g name) (name :: proc) (name :: vis) ts v2 hpv2 hc
          have hmono := buildTreeChildren_mono
            (fun c p v t2 w hcall => buildTreeNode_mono g n c p v t2 w hcall)
            (buildAdjacencyList g name) (name :: proc) (name :: vis) ts v2 hc
          have hnamev2 : name ∈ v2 := hmono (by simp)
          refine ⟨hnamev2, ?_⟩
          intro x hx hxvis y hy
          by_cases hxname : x = name
          · subst hxname
            exact hlist.1 y hy
          · exact hlist.2 x hx (by simp [hxname, hxvis]) y hy

theorem buildTreeChildren_names {g : SchemaGraph}
    {rec : String → List String → List String → Option (TreeNode × List String)}
    (hrecmono : ∀ c proc vis t v', rec c proc vis = some (t, v') → vis ⊆ v')
    (hrec : ∀ c proc vis t v', rec c proc vis = some (t, v') →
      ∀ x ∈ v', x ∉ vis → TreeNode.hasName t x = true) :
    ∀ cs proc vis ts v',
      buildTreeChildren rec cs proc vis = some (ts, v') →
      ∀ x ∈ v', x ∉ vis → TreeNode.forestHasName ts x = true := by
  intro cs
  induction cs with
  | nil =>
    intro proc vis ts v' h x hx hxvis
    simp only [buildTreeChildren, Option.some.injEq, Prod.mk.injEq] at h
    rw [← h.2] at hx
    exact absurd hx hxvis
  | cons c rest ih =>
    intro proc vis ts v' h x hx hxvis
    cases hc : rec c proc vis with
    | none => simp [buildTreeChildren, hc] at h
    | some tv1 =>
      obtain ⟨t1, v1⟩ := tv1
      cases hr : buildTreeChildren rec rest proc v1 with
      | none => simp [buildTreeChildren, hc, hr] at h
      | some tsv2 =>
        obtain ⟨ts2, v2⟩ := tsv2
        simp only [buildTreeChildren, hc, hr, Option.some.injEq, Prod.mk.injEq] at h
        rw [← h.1]
        rw [← h.2] at hx
        simp only [TreeNode.forestHasName, Bool.or_eq_true]
        by_cases hxv1 : x ∈ v1
        · exact Or.inl (hrec c proc vis t1 v1 hc x hxv1 hxvis)
        · exact Or.inr (ih proc v1 ts2 v2 hr x hx hxv1)

theorem buildTreeNode_names (g : SchemaGraph) :
    ∀ fuel name proc vis t v',
      buildTreeNode g fuel name proc vis = some (t, v') →
      ∀ x ∈ v', x ∉ vis → TreeNode.hasName t x = true := by
  intro fuel
  induction fuel with
  | zero => intro name proc vis t v' h; exact absurd h (by simp [buildTreeNode])
  | succ n ih =>
    intro name proc vis t v' h x hx hxvis
    simp only [buildTreeNode] at h
    split at h
    · simp only [Option.some.injEq, Prod.mk.injEq] at h
      rw [← h.2] at hx
      exact absurd hx hxvis
    · split at h
      · simp only [Option.some.injEq, Prod.mk.injEq] at h
        rw [← h.2] at hx
        exact absurd hx hxvis
      · cases hc : buildTreeChildren (buildTreeNode g n)
            (buildAdjacencyList g name) (name :: proc) (name :: vis) with
        | none => rw [hc] at h; exact absurd h (by simp)
        | some tsv =>
          obtain ⟨ts, v2⟩ := tsv
          rw [hc] at h
          simp only [Option.some.injEq, Prod.mk.injEq] at h
          rw [← h.2] at hx
          rw [← h.1]
          simp only [TreeNode.hasName, Bool.or_eq_true]
          by_cases hxname : x = name
          · subst hxname
            exact Or.inl (by simp)
          · refine Or.inr (buildTreeChildren_names (g := g)
              (fun c p v t2 w hcall => buildTreeNode_mono g n c p v t2 w hcall)
              (fun c p v t2 w hcall => ih c p v t2 w hcall)
              _ _ _ _ _ hc x hx ?_)
            simp [hxname, hxvis]

theorem buildTreeNode_circ_of_proc (g : SchemaGraph) :
    ∀ fuel name proc vis t v',
      buildTreeNode g fuel name proc vis = some (t, v') → name ∈ proc →
      t = TreeNode.mk name (mapFind? g.nodes name) [] true false := by
  intro fuel name proc vis t v' h hin
  cases fuel with
  | zero => exact absurd h (by simp [buildTreeNode])
  | succ n =>
    simp only [buildTreeNode] at h
    rw [if_pos hin] at h
    simp only [Option.some.injEq, Prod.mk.injEq] at h
    rw [← h.1]

theorem buildTreeChildren_circ_of_proc
    {rec : String → List String → List String → Option (TreeNode × List String)}
    (hrec : ∀ c proc vis t v', rec c proc vis = some (t, v') → c ∈ proc →
      t.isCircular = true ∧ t.tableName = c) :
    ∀ cs proc vis ts v',
      buildTreeChildren rec cs proc vis = some (ts, v') →
      ∀ y ∈ cs, y ∈ proc → TreeNode.forestHasCircN ts y = true := by
  intro cs
  induction cs with
  | nil => intro proc vis ts v' h y hy; exact absurd hy (by simp)
  | cons c rest ih =>
    intro proc vis ts v' h y hy hyproc
    cases hc : rec c proc vis with
    | none => simp [buildTreeChildren, hc] at h
    | some tv1 =>
      obtain ⟨t1, v1⟩ := tv1
      cases hr : buildTreeChildren rec rest proc v1 with
      | none => simp [buildTreeChildren, hc, hr] at h
      | some tsv2 =>
        obtain ⟨ts2, v2⟩ := tsv2
        simp only [buildTreeChildren, hc, hr, Option.some.injEq, Prod.mk.injEq] at h
        rw [← h.1]
        rcases List.mem_cons.mp hy with rfl | hy2
        · have := hrec y proc vis t1 v1 hc hyproc
          obtain ⟨t1n, t1tbl, t1cs, t1c, t1s⟩ := t1
          simp only [TreeNode.isCircular, TreeNode.tableName] at this
          simp [TreeNode.forestHasCircN, TreeNode.hasCircN, this.1, this.2]
        · simp only [TreeNode.forestHasCircN, Bool.or_eq_true]
          exact Or.inr (ih proc v1 ts2 v2 hr y hy2 hyproc)

theorem buildTreeChildren_circN {g : SchemaGraph}
    {rec : String → List String → List String → Option (TreeNode × List String)}
    (hrecmono : ∀ c proc vis t v', rec c proc vis = some (t, v') → vis ⊆ v')
    (hrec : ∀ c proc vis t v', proc ⊆ vis → rec c proc vis = some (t, v') →
      ∀ x ∈ v', x ∉ vis → ∀ y ∈ buildAdjacencyList g x, (y = c ∨ y ∈ proc) →
        TreeNode.hasCircN t y = true) :
    ∀ cs proc vis ts v', proc ⊆ vis →
      buildTreeChildren rec cs proc vis = some (ts, v') →
      ∀ x ∈ v', x ∉ vis → ∀ y ∈ buildAdjacencyList g x, y ∈ proc →
        TreeNode.forestHasCircN ts y = true := by
  intro cs
  induction cs with
  | nil =>
    intro proc vis ts v' hpv h x hx hxvis
    simp only [buildTreeChildren, Option.some.injEq, Prod.mk.injEq] at h
    rw [← h.2] at hx
    exact absurd hx hxvis
  | cons c rest ih =>
    intro proc vis ts v' hpv h x hx hxvis y hy hyproc
    cases hc : rec c proc vis with
    | none => simp [buildTreeChildren, hc] at h
    | some tv1 =>
      obtain ⟨t1, v1⟩ := tv1
      cases hr : buildTreeChildren rec rest proc v1 with
      | none => simp [buildTreeChildren, hc, hr] at h
      | some tsv2 =>
        obtain ⟨ts2, v2⟩ := tsv2
        simp only [buildTreeChildren, hc, hr, Option.some.injEq, Prod.mk.injEq] at h
        rw [← h.1]
        rw [← h.2] at hx
        simp only [TreeNode.forestHasCircN, Bool.or_eq_true]
        by_cases hxv1 : x ∈ v1
        · exact Or.inl (hrec c proc vis t1 v1 hpv hc x hxv1 hxvis y hy (Or.inr hyproc))
        · exact Or.inr (ih proc v1 ts2 v2
            (List.Subset.trans hpv (hrecmono c proc vis t1 v1 hc)) hr x hx hxv1 y hy hyproc)

theorem buildTreeNode_circN (g : SchemaGraph) :
    ∀ fuel name proc vis t v', proc ⊆ vis →
      buildTreeNode g fuel name proc vis = some (t, v') →
      ∀ x ∈ v', x ∉ vis → ∀ y ∈ buildAdjacencyList g x, (y = name ∨ y ∈ proc) →
        TreeNode.hasCircN t y = true := by
  intro fuel
  induction fuel with
  | zero => intro name proc vis t v' _ h; exact absurd h (by simp [buildTreeNode])
  | succ n ih =>
    intro name proc vis t v' hpv h x hx hxvis y hy hycond
    simp only [buildTreeNode] at h
    split at h
    · simp only [Option.some.injEq, Prod.mk.injEq] at h
      rw [← h.2] at hx
      exact absurd hx hxvis
    · split at h
      · simp only [Option.some.injEq, Prod.mk.injEq] at h
        rw [← h.2] at hx
        exact absurd hx hxvis
      · rename_i hninproc hninvis
        cases hc : buildTreeChildren (buildTreeNode g n)
            (buildAdjacencyList g name) (name :: proc) (name :: vis) with
        | none => rw [hc] at h; exact absurd h (by simp)
        | some tsv =>
          obtain ⟨ts, v2⟩ := tsv
          rw [hc] at h
          simp only [Option.some.injEq, Prod.mk.injEq] at h
          rw [← h.2] at hx
          rw [← h.1]
          simp only [TreeNode.hasCircN, Bool.or_eq_true]
          have hyproc2 : y ∈ name :: proc := by
            rcases hycond with rfl | hyp
            · simp
            · simp [hyp]
          by_cases hxname : x = name
          · subst hxname
            refine Or.inr (buildTreeChildren_circ_of_proc
              (fun c p v t2 w hcall hcin => ?_) _ _ _ _ _ hc y hy hyproc2)
            have := buildTreeNode_circ_of_proc g n c p v t2 w hcall hcin
            rw [this]
            exact ⟨rfl, rfl⟩
          · refine Or.inr (buildTreeChildren_circN (g := g)
              (fun c p v t2 w hcall => buildTreeNode_mono g n c p v t2 w hcall)
              (fun c p v t2 w hp hcall => ih c p v t2 w hp hcall)
              _ _ _ _ _ (List.cons_subset_cons _ hpv) hc x hx
              (by simp [hxname, hxvis]) y hy hyproc2)

theorem buildTreeChildren_renderSafe
    {rec : String → List String → List String → Option (TreeNode × List String)}
    (hrec : ∀ c proc vis t v', c ≠ "orphan_tables" → rec c proc vis = some (t, v') →
      TreeNode.renderSafe t = true) :
    ∀ cs proc vis ts v', (∀ c ∈ cs, c ≠ "orphan_tables") →
      buildTreeChildren rec cs proc vis = some (ts, v') →
      TreeNode.forestRenderSafe ts = true := by
  intro cs
  induction cs with
  | nil =>
    intro proc vis ts v' _ h
    simp only [buildTreeChildren, Option.some.injEq, Prod.mk.injEq] at h
    rw [← h.1]
    rfl
  | cons c rest ih =>
    intro proc vis ts v' hsafe h
    cases hc : rec c proc vis with
    | none => simp [buildTreeChildren, hc] at h
    | some tv1 =>
      obtain ⟨t1, v1⟩ := tv1
      cases hr : buildTreeChildren rec rest proc v1 with
      | none => simp [buildTreeChildren, hc, hr] at h
      | some tsv2 =>
        obtain ⟨ts2, v2⟩ := tsv2
        simp only [buildTreeChildren, hc, hr, Option.some.injEq, Prod.mk.injEq] at h
        rw [← h.1]
        simp only [TreeNode.forestRenderSafe, Bool.and_eq_true]
        exact ⟨hrec c proc vis t1 v1 (hsafe c (by simp)) hc,
          ih proc v1 ts2 v2 (fun a ha => hsafe a (by simp [ha])) hr⟩

theorem buildTreeNode_renderSafe (g : SchemaGraph)
    (hedges : ∀ e ∈ g.edges, e.fromTable ≠ "orphan_tables") :
    ∀ fuel name proc vis t v', name ≠ "orphan_tables" →
      buildTreeNode g fuel name proc vis = some (t, v') →
      TreeNode.renderSafe t = true := by
  intro fuel
  induction fuel with
  | zero => intro name proc vis t v' _ h; exact absurd h (by simp [buildTreeNode])
  | succ n ih =>
    intro name proc vis t v' hname h
    simp only [buildTreeNode] at h
    split at h
    · simp only [Option.some.injEq, Prod.mk.injEq] at h
      rw [← h.1]
      simp [TreeNode.renderSafe, TreeNode.forestRenderSafe, hname]
    · split at h
      · simp only [Option.some.injEq, Prod.mk.injEq] at h
        rw [← h.1]
        simp [TreeNode.renderSafe, TreeNode.forestRenderSafe, hname]
      · cases hc : buildTreeChildren (buildTreeNode g n)
            (buildAdjacencyList g name) (name :: proc) (name :: vis) with
        | none => rw [hc] at h; exact absurd h (by simp)
        | some tsv =>
          obtain ⟨ts, v2⟩ := tsv
          rw [hc] at h
          simp only [Option.some.injEq, Prod.mk.injEq] at h
          rw [← h.1]
          simp only [TreeNode.renderSafe, Bool.and_eq_true]
          refine ⟨⟨by simp [hname], by simp⟩, ?_⟩
          refine buildTreeChildren_renderSafe
            (fun c p v t2 w hcn hcall => ih c p v t2 w hcn hcall) _ _ _ _ _ ?_ hc
          intro a ha
          obtain ⟨e, he, rfl⟩ := buildAdjacencyList_from ha
          exact hedges e he

theorem forestHasCirc_of_circN :
    ∀ l : List TreeNode, ∀ x, TreeNode.forestHasCircN l x = true →
      TreeNode.forestHasCirc l = true := by
  have := TreeNode.indForest
    (P := fun t => ∀ x, TreeNode.hasCircN t x = true → TreeNode.hasCirc t = true)
    (Q := fun l => ∀ x, TreeNode.forestHasCircN l x = true →
      TreeNode.forestHasCirc l = true)
    (fun n tbl cs c s hq => by
      intro x h
      simp only [TreeNode.hasCircN, Bool.or_eq_true, Bool.and_eq_true] at h
      simp only [TreeNode.hasCirc, Bool.or_eq_true]
      rcases h with ⟨hc, _⟩ | hforest
      · exact Or.inl hc
      · exact Or.inr (hq x hforest))
    (fun x h => by simp [TreeNode.forestHasCircN] at h)
    (fun c rest hp hq => by
      intro x h
      simp only [TreeNode.forestHasCircN, Bool.or_eq_true] at h
      simp only [TreeNode.forestHasCirc, Bool.or_eq_true]
      rcases h with h1 | h2
      · exact Or.inl (hp x h1)
      · exact Or.inr (hq x h2))
  exact this

theorem forestHasName_of_circN :
    ∀ l : List TreeNode, ∀ x, TreeNode.forestHasCircN l x = true →
      TreeNode.forestHasName l x = true := by
  have := TreeNode.indForest
    (P := fun t => ∀ x, TreeNode.hasCircN t x = true → TreeNode.hasName t x = true)
    (Q := fun l => ∀ x, TreeNode.forestHasCircN l x = true →
      TreeNode.forestHasName l x = true)
    (fun n tbl cs c s hq => by
      intro x h
      simp only [TreeNode.hasCircN, Bool.or_eq_true, Bool.and_eq_true] at h
      simp only [TreeNode.hasName, Bool.or_eq_true]
      rcases h with ⟨_, hn⟩ | hforest
      · exact Or.inl hn
      · exact Or.inr (hq x hforest))
    (fun x h => by simp [TreeNode.forestHasCircN] at h)
    (fun c rest hp hq => by
      intro x h
      simp only [TreeNode.forestHasCircN, Bool.or_eq_true] at h
      simp only [TreeNode.forestHasName, Bool.or_eq_true]
      rcases h with h1 | h2
      · exact Or.inl (hp x h1)
      · exact Or.inr (hq x h2))
  exact this

/-! ## Fuel sufficiency: the traversal terminates -/

theorem unvisitedCount_le_of_subset (univ : List String) {vis vis' : List String}
    (h : vis ⊆ vis') : unvisitedCount univ vis' ≤ unvisitedCount univ vis := by
  induction univ with
  | nil => simp [unvisitedCount]
  | cons x rest ih =>
    have hrest : unvisitedCount rest vis' ≤ unvisitedCount rest vis := ih
    simp only [unvisitedCount] at hrest ⊢
    by_cases hx' : x ∈ vis'
    · by_cases hx : x ∈ vis
      · simp only [List.filter_cons, hx, hx']
        simpa using hrest
      · simp only [List.filter_cons, hx, hx']
        simp only [not_true, decide_False, not_false_iff, decide_True,
          List.length_cons]
        exact Nat.le_succ_of_le hrest
    · have hx : x ∉ vis := fun hc => hx' (h hc)
      simp only [List.filter_cons, hx, hx']
      simp only [not_false_iff, decide_True, List.length_cons]
      exact Nat.succ_le_succ hrest

theorem unvisitedCount_lt (univ : List String) {name : String} {vis : List String}
    (hmem : name ∈ univ) (hnvis : name ∉ vis) :
    unvisitedCount univ (name :: vis) < unvisitedCount univ vis := by
  induction univ with
  | nil => simp at hmem
  | cons x rest ih =>
    have hle : unvisitedCount rest (name :: vis) ≤ unvisitedCount rest vis :=
      unvisitedCount_le_of_subset rest (List.subset_cons_self _ _)
    by_cases hxnv : x ∈ name :: vis
    · by_cases hxv : x ∈ vis
      · rcases List.mem_cons.mp hmem with rfl | hmem2
        · exact absurd hxv hnvis
        · simp only [unvisitedCount, List.filter_cons, hxnv, hxv] at ih ⊢
          simpa using ih hmem2
      · have hxname : x = name := by
          rcases List.mem_cons.mp hxnv with h | h
          · exact h
          · exact absurd h hxv
        subst hxname
        simp only [unvisitedCount, List.filter_cons, hxnv, hxv]
        simp only [not_true, decide_False, not_false_iff, decide_True,
          List.length_cons]
        exact Nat.lt_succ_of_le (by simpa [unvisitedCount] using hle)
    · have hxv : x ∉ vis := fun hc => hxnv (by simp [hc])
      have hxname : x ≠ name := fun hc => hxnv (by simp [hc])
      have hmem2 : name ∈ rest := by
        rcases List.mem_cons.mp hmem with h | h
        · exact absurd h.symm hxname
        · exact h
      simp only [unvisitedCount, List.filter_cons, hxnv, hxv] at ih ⊢
      simp only [not_false_iff, decide_True, List.length_cons]
      exact Nat.succ_lt_succ (by simpa using ih hmem2)

theorem buildTreeChildren_isSome
    {rec : String → List String → List String → Option (TreeNode × List String)}
    {univ : List String} {B : Nat}
    (hrecmono : ∀ c proc vis t v', rec c proc vis = some (t, v') → vis ⊆ v')
    (hrec : ∀ c ∈ univ, ∀ proc vis, unvisitedCount univ vis ≤ B →
      (rec c proc vis).isSome) :
    ∀ cs, (∀ c ∈ cs, c ∈ univ) → ∀ proc vis, unvisitedCount univ vis ≤ B →
      (buildTreeChildren rec cs proc vis).isSome := by
  intro cs
  induction cs with
  | nil => intro _ proc vis _; simp [buildTreeChildren]
  | cons c rest ih =>
    intro hcs proc vis hB
    have h1 := hrec c (hcs c (by simp)) proc vis hB
    cases hc : rec c proc vis with
    | none => rw [hc] at h1; simp at h1
    | some tv1 =>
      obtain ⟨t1, v1⟩ := tv1
      have hv1 : vis ⊆ v1 := hrecmono c proc vis t1 v1 hc
      have hB1 : unvisitedCount univ v1 ≤ B :=
        le_trans (unvisitedCount_le_of_subset univ hv1) hB
      have h2 := ih (fun a ha => hcs a (by simp [ha])) proc v1 hB1
      cases hr : buildTreeChildren rec rest proc v1 with
      | none => rw [hr] at h2; simp at h2
      | some tsv2 =>
        simp [buildTreeChildren, hc, hr]

theorem buildTreeNode_isSome (g : SchemaGraph) {univ : List String}
    (huniv : ∀ x y, y ∈ buildAdjacencyList g x → y ∈ univ) :
    ∀ fuel name proc vis, name ∈ univ → unvisitedCount univ vis < fuel →
      (buildTreeNode g fuel name proc vis).isSome := by
  intro fuel
  induction fuel with
  | zero => intro name proc vis _ h; exact absurd h (Nat.not_lt_zero _)
  | succ n ih =>
    intro name proc vis hname hfuel
    simp only [buildTreeNode]
    split
    · simp
    · split
      · simp
      · rename_i hninproc hninvis
        have hlt : unvisitedCount univ (name :: vis) < unvisitedCount univ vis :=
          unvisitedCount_lt univ hname hninvis
        have hn : unvisitedCount univ vis ≤ n := Nat.lt_succ_iff.mp hfuel
        have hsome := @buildTreeChildren_isSome
          (buildTreeNode g n) univ (unvisitedCount univ (name :: vis))
          (fun c p v t w hcall => buildTreeNode_mono g n c p v t w hcall)
          (fun c hcu p v hB => ih c p v hcu (lt_of_le_of_lt hB (lt_of_lt_of_le hlt hn)))
          (buildAdjacencyList g name) (fun c hc => huniv name c hc)
          (name :: proc) (name :: vis) (le_refl _)
        cases hc : buildTreeChildren (buildTreeNode g n) (buildAdjacencyList g name)
            (name :: proc) (name :: vis) with
        | none => rw [hc] at hsome; simp at hsome
        | some tsv => simp

/-! ## `buildTree` structure -/

theorem sortStrings_eq_nil {l : List String} (h : l = []) : sortStrings l = [] := by
  subst h
  rfl

theorem sortStrings_nil_iff {l : List String} : sortStrings l = [] ↔ l = [] := by
  constructor
  · intro h
    have := sortStrings_perm l
    rw [h] at this
    exact (List.Perm.nil_eq this).symm
  · exact sortStrings_eq_nil

theorem findRootTables_iff {g : SchemaGraph} {r : String} :
    r ∈ findRootTables g ↔
      r ∈ g.nodes.map Prod.fst ∧ ∀ e ∈ g.edges, e.fromTable ≠ r := by
  unfold findRootTables
  rw [List.Perm.mem_iff (sortStrings_perm _)]
  simp only [List.mem_filter, Bool.not_eq_true', ← Bool.not_eq_true]
  constructor
  · rintro ⟨h1, h2⟩
    refine ⟨h1, fun e he hfe => ?_⟩
    apply h2
    simp only [List.elem_iff, List.mem_map]
    exact ⟨e, he, hfe⟩
  · rintro ⟨h1, h2⟩
    refine ⟨h1, fun hc => ?_⟩
    simp only [List.elem_iff, List.mem_map] at hc
    obtain ⟨e, he, hfe⟩ := hc
    exact h2 e he hfe

theorem firstTable_foldl_mem :
    ∀ (l : List (String × Table)) (acc : String),
      l.foldl (fun acc p => if acc = "" ∨ strLt p.1 acc = true then p.1 else acc) acc = acc ∨
        l.foldl (fun acc p => if acc = "" ∨ strLt p.1 acc = true then p.1 else acc) acc
          ∈ l.map Prod.fst := by
  intro l
  induction l with
  | nil => intro acc; exact Or.inl rfl
  | cons p rest ih =>
    intro acc
    simp only [List.foldl_cons]
    rcases ih (if acc = "" ∨ strLt p.1 acc = true then p.1 else acc) with h | h
    · rw [h]
      split
      · exact Or.inr (by simp)
      · exact Or.inl rfl
    · exact Or.inr (by simp [h])

theorem firstTableName_mem {g : SchemaGraph} (h : g.nodes ≠ []) :
    firstTableName g ∈ g.nodes.map Prod.fst := by
  unfold firstTableName
  cases hn : g.nodes with
  | nil => exact absurd hn h
  | cons p rest =>
    simp only [List.foldl_cons, true_or, ite_true]
    rcases firstTable_foldl_mem rest p.1 with h2 | h2
    · rw [h2]; simp
    · simp [h2]

theorem mem_traversalUniv_of_key {g : SchemaGraph} {n : String}
    (h : n ∈ g.nodes.map Prod.fst) : n ∈ traversalUniv g :=
  List.mem_append_left _ h

theorem adjacency_mem_univ (g : SchemaGraph) :
    ∀ x y, y ∈ buildAdjacencyList g x → y ∈ traversalUniv g := by
  intro x y hy
  obtain ⟨e, he, rfl⟩ := buildAdjacencyList_from hy
  exact List.mem_append_right _ (List.mem_map_of_mem _ he)

theorem unvisitedCount_lt_treeFuel (g : SchemaGraph) (vis : List String) :
    unvisitedCount (traversalUniv g) vis < treeFuel g := by
  have h1 : unvisitedCount (traversalUniv g) vis ≤ (traversalUniv g).length :=
    List.length_filter_le _ _
  have h2 : (traversalUniv g).length = g.nodes.length + g.edges.length := by
    simp [traversalUniv]
  rw [treeFuel]
  omega

theorem buildTreeNode_treeFuel_isSome (g : SchemaGraph) {name : String}
    (hname : name ∈ traversalUniv g) (proc vis : List String) :
    (buildTreeNode g (treeFuel g) name proc vis).isSome :=
  buildTreeNode_isSome g (adjacency_mem_univ g) (treeFuel g) name proc vis hname
    (unvisitedCount_lt_treeFuel g vis)

theorem buildTreeChildren_treeFuel_isSome (g : SchemaGraph) {cs : List String}
    (hcs : ∀ c ∈ cs, c ∈ traversalUniv g) (proc vis : List String) :
    (buildTreeChildren (buildTreeNode g (treeFuel g)) cs proc vis).isSome :=
  @buildTreeChildren_isSome (buildTreeNode g (treeFuel g)) (traversalUniv g)
    ((traversalUniv g).length)
    (fun c p v t w hcall => buildTreeNode_mono g (treeFuel g) c p v t w hcall)
    (fun c hc p v hB => buildTreeNode_isSome g (adjacency_mem_univ g) (treeFuel g)
      c p v hc (lt_of_le_of_lt hB (by
        have : (traversalUniv g).length = g.nodes.length + g.edges.length := by
          simp [traversalUniv]
        rw [treeFuel]; omega)))
    cs hcs proc vis (List.length_filter_le _ _)

theorem rootTables_in_univ {g : SchemaGraph} :
    ∀ c ∈ findRootTables g, c ∈ traversalUniv g := by
  intro c hc
  exact mem_traversalUniv_of_key (findRootTables_iff.mp hc).1

/-- The filter in `findOrphanTables` never keeps anything: an edge-free table
is a root, hence visited by the root traversal; and when no root exists there
is no edge-free table at all. -/
theorem findOrphanTables_roots_case (g : SchemaGraph) {ts : List TreeNode}
    {v : List String}
    (h : buildTreeChildren (buildTreeNode g (treeFuel g)) (findRootTables g) [] []
      = some (ts, v)) :
    findOrphanTables g v = [] := by
  unfold findOrphanTables
  apply sortStrings_eq_nil
  rw [List.filter_eq_nil_iff]
  intro n hn
  intro hcontra
  simp only [Bool.and_eq_true, Bool.not_eq_true'] at hcontra
  obtain ⟨hnv, hne⟩ := hcontra
  -- n is touched by no edge, so it is a root, so the traversal visited it.
  have hroot : n ∈ findRootTables g := by
    rw [findRootTables_iff]
    refine ⟨hn, fun e he hfe => ?_⟩
    have : g.edges.any (fun e => e.fromTable == n || e.toTable == n) = true := by
      rw [List.any_eq_true]
      exact ⟨e, he, by simp [hfe]⟩
    rw [this] at hne
    simp at hne
  have hclosed := buildTreeChildren_closed (g := g)
    (fun c p vv t w hcall => buildTreeNode_mono g (treeFuel g) c p vv t w hcall)
    (fun c p vv t w hp hcall => buildTreeNode_closed g (treeFuel g) c p vv t w hp hcall)
    (findRootTables g) [] [] ts v (by simp) h
  have hnvmem : n ∈ v := hclosed.1 n hroot
  rw [← List.elem_iff] at hnvmem
  rw [List.contains] at hnv
  rw [hnv] at hnvmem
  exact Bool.false_ne_true hnvmem

theorem findOrphanTables_noroots_case (g : SchemaGraph)
    (h : findRootTables g = []) (v : List String) :
    findOrphanTables g v = [] := by
  unfold findOrphanTables
  apply sortStrings_eq_nil
  rw [List.filter_eq_nil_iff]
  intro n hn
  intro hcontra
  simp only [Bool.and_eq_true, Bool.not_eq_true'] at hcontra
  obtain ⟨hnv, hne⟩ := hcontra
  have hroot : n ∈ findRootTables g := by
    rw [findRootTables_iff]
    refine ⟨hn, fun e he hfe => ?_⟩
    have : g.edges.any (fun e => e.fromTable == n || e.toTable == n) = true := by
      rw [List.any_eq_true]
      exact ⟨e, he, by simp [hfe]⟩
    rw [this] at hne
    simp at hne
  rw [h] at hroot
  exact absurd hroot (by simp)

/-! ## Cycle detection: a cycle among freshly visited tables forces a
circular-flagged node -/

theorem hasCirc_of_hasCircN_node (t : TreeNode) (x : String)
    (h : TreeNode.hasCircN t x = true) : TreeNode.hasCirc t = true := by
  refine TreeNode.indNode
    (P := fun t => ∀ x, TreeNode.hasCircN t x = true → TreeNode.hasCirc t = true)
    (Q := fun l => ∀ x, TreeNode.forestHasCircN l x = true →
      TreeNode.forestHasCirc l = true)
    (fun n tbl cs c s hq => by
      intro x h
      simp only [TreeNode.hasCircN, Bool.or_eq_true, Bool.and_eq_true] at h
      simp only [TreeNode.hasCirc, Bool.or_eq_true]
      rcases h with ⟨hc, _⟩ | hforest
      · exact Or.inl hc
      · exact Or.inr (hq x hforest))
    (fun x h => by simp [TreeNode.forestHasCircN] at h)
    (fun c rest hp hq => by
      intro x h
      simp only [TreeNode.forestHasCircN, Bool.or_eq_true] at h
      simp only [TreeNode.forestHasCirc, Bool.or_eq_true]
      rcases h with h1 | h2
      · exact Or.inl (hp x h1)
      · exact Or.inr (hq x h2)) t x h

theorem transGen_last_holds {α : Type} {r : α → α → Prop} {Q : α → Prop}
    (hQ : ∀ a b, r a b → Q b) {a b : α} (h : Relation.TransGen r a b) : Q b := by
  induction h with
  | single hr => exact hQ _ _ hr
  | tail _ hbc _ => exact hQ _ _ hbc

theorem transGen_avoid {α : Type} {r : α → α → Prop} {C : α → Prop} {a b : α}
    (h : Relation.TransGen r a b) :
    Relation.TransGen (fun u v => r u v ∧ ¬ C v) a b ∨
      ∃ c, C c ∧ Relation.TransGen r a c ∧ Relation.ReflTransGen r c b := by
  induction h with
  | single hr =>
    rename_i target
    by_cases hC : C target
    · exact Or.inr ⟨target, hC, Relation.TransGen.single hr, Relation.ReflTransGen.refl⟩
    · exact Or.inl (Relation.TransGen.single ⟨hr, hC⟩)
  | tail hab hbc ih =>
    rename_i mid target
    by_cases hC : C target
    · exact Or.inr ⟨target, hC, Relation.TransGen.tail hab hbc, Relation.ReflTransGen.refl⟩
    · rcases ih with h1 | ⟨c, hc, h2, h3⟩
      · exact Or.inl (Relation.TransGen.tail h1 ⟨hbc, hC⟩)
      · exact Or.inr ⟨c, hc, h2, Relation.ReflTransGen.tail h3 hbc⟩

theorem transGen_restrict {α : Type} {r : α → α → Prop} {P : α → Prop}
    (hstep : ∀ x y, P x → r x y → P y) {a b : α} (ha : P a)
    (h : Relation.TransGen r a b) :
    Relation.TransGen (fun u v => r u v ∧ P u ∧ P v) a b := by
  induction h with
  | single hr => exact Relation.TransGen.single ⟨hr, ha, hstep _ _ ha hr⟩
  | tail hab hbc ih =>
    have hPb := transGen_last_holds (Q := P) (fun u v hr => hr.2.2) ih
    exact Relation.TransGen.tail ih ⟨hbc, hPb, hstep _ _ hPb hbc⟩

theorem reach_mem_of_closed {g : SchemaGraph} {v : List String}
    (hclosed : ∀ x ∈ v, ∀ y ∈ buildAdjacencyList g x, y ∈ v) {a b : String}
    (ha : a ∈ v) (h : Relation.ReflTransGen (childStep g) a b) : b ∈ v := by
  induction h with
  | refl => exact ha
  | tail _ hbc ih => exact hclosed _ ih _ hbc

theorem buildTreeChildren_noCycle {g : SchemaGraph}
    {rec : String → List String → List String → Option (TreeNode × List String)}
    (hrecmono : ∀ c proc vis t v', rec c proc vis = some (t, v') → vis ⊆ v')
    (hrecclosed : ∀ c proc vis t v', proc ⊆ vis → rec c proc vis = some (t, v') →
      c ∈ v' ∧ (∀ x ∈ v', x ∉ vis → ∀ y ∈ buildAdjacencyList g x, y ∈ v'))
    (hrec : ∀ c proc vis t v', proc ⊆ vis → rec c proc vis = some (t, v') →
      TreeNode.hasCirc t = false →
      ∀ x, x ∈ v' → x ∉ vis →
        Relation.TransGen
          (fun a b => childStep g a b ∧ b ∈ v' ∧ b ∉ vis) x x → False) :
    ∀ cs proc vis ts v', proc ⊆ vis →
      buildTreeChildren rec cs proc vis = some (ts, v') →
      TreeNode.forestHasCirc ts = false →
      ∀ x, x ∈ v' → x ∉ vis →
        Relation.TransGen
          (fun a b => childStep g a b ∧ b ∈ v' ∧ b ∉ vis) x x → False := by
  intro cs
  induction cs with
  | nil =>
    intro proc vis ts v' hpv h _ x hx hxvis _
    simp only [buildTreeChildren, Option.some.injEq, Prod.mk.injEq] at h
    rw [← h.2] at hx
    exact absurd hx hxvis
  | cons c rest ih =>
    intro proc vis ts v' hpv h hnc x hx hxvis hcyc
    cases hc : rec c proc vis with
    | none => simp [buildTreeChildren, hc] at h
    | some tv1 =>
      obtain ⟨t1, v1⟩ := tv1
      cases hr : buildTreeChildren rec rest proc v1 with
      | none => simp [buildTreeChildren, hc, hr] at h
      | some tsv2 =>
        obtain ⟨ts2, v2⟩ := tsv2
        simp only [buildTreeChildren, hc, hr, Option.some.injEq, Prod.mk.injEq] at h
        rw [← h.1] at hnc
        rw [← h.2] at hx hcyc
        simp only [TreeNode.forestHasCirc, Bool.or_eq_false_iff] at hnc
        have hclosed1 := hrecclosed c proc vis t1 v1 hpv hc
        rcases transGen_avoid (C := fun v => v ∈ v1) hcyc with hleft | ⟨cc, hccv1, h2, h3⟩
        · -- the cycle stays outside v1, so it lives in the tail call
          have hxnotv1 : x ∉ v1 :=
            transGen_last_holds (Q := fun b => b ∉ v1) (fun u v hr => hr.2) hleft
          have hmono2 : Relation.TransGen
              (fun a b => childStep g a b ∧ b ∈ v2 ∧ b ∉ v1) x x := by
            refine Relation.TransGen.mono ?_ hleft
            rintro u v ⟨⟨hstep, hv2, _⟩, hnv1⟩
            exact ⟨hstep, hv2, hnv1⟩
          exact ih proc v1 ts2 v2
            (List.Subset.trans hpv (hrecmono c proc vis t1 v1 hc)) hr hnc.2
            x hx hxnotv1 hmono2
        · -- the cycle meets v1: rotate it to a member of v1 and push it into
          -- the first call
          have hccprop : cc ∈ v2 ∧ cc ∉ vis :=
            transGen_last_holds (Q := fun b => b ∈ v2 ∧ b ∉ vis)
              (fun u v hr => ⟨hr.2.1, hr.2.2⟩) h2
          have hcyccc : Relation.TransGen
              (fun a b => childStep g a b ∧ b ∈ v2 ∧ b ∉ vis) cc cc :=
            Relation.TransGen.trans_right h3 h2
          have hrestrict := transGen_restrict
            (P := fun u => u ∈ v1 ∧ u ∉ vis)
            (fun u v hu hr => ⟨hclosed1.2 u hu.1 hu.2 v hr.1, hr.2.2⟩)
            ⟨hccv1, hccprop.2⟩ hcyccc
          have hmono1 : Relation.TransGen
              (fun a b => childStep g a b ∧ b ∈ v1 ∧ b ∉ vis) cc cc := by
            refine Relation.TransGen.mono ?_ hrestrict
            rintro u v ⟨⟨hstep, _, _⟩, _, hv⟩
            exact ⟨hstep, hv.1, hv.2⟩
          exact hrec c proc vis t1 v1 hpv hc hnc.1 cc hccv1 hccprop.2 hmono1

theorem buildTreeNode_noCycle (g : SchemaGraph) :
    ∀ fuel name proc vis t v', proc ⊆ vis →
      buildTreeNode g fuel name proc vis = some (t, v') →
      TreeNode.hasCirc t = false →
      ∀ x, x ∈ v' → x ∉ vis →
        Relation.TransGen
          (fun a b => childStep g a b ∧ b ∈ v' ∧ b ∉ vis) x x → False := by
  intro fuel
  induction fuel with
  | zero => intro name proc vis t v' _ h; exact absurd h (by simp [buildTreeNode])
  | succ n ih =>
    intro name proc vis t v' hpv h hnc x hx hxvis hcyc
    have hmain := h
    simp only [buildTreeNode] at hmain
    split at hmain
    · simp only [Option.some.injEq, Prod.mk.injEq] at hmain
      rw [← hmain.2] at hx
      exact absurd hx hxvis
    · split at hmain
      · simp only [Option.some.injEq, Prod.mk.injEq] at hmain
        rw [← hmain.2] at hx
        exact absurd hx hxvis
      · rename_i hninproc hninvis
        cases hc : buildTreeChildren (buildTreeNode g n)
            (buildAdjacencyList g name) (name :: proc) (name :: vis) with
        | none => rw [hc] at hmain; exact absurd hmain (by simp)
        | some tsv =>
          obtain ⟨ts, v2⟩ := tsv
          rw [hc] at hmain
          simp only [Option.some.injEq, Prod.mk.injEq] at hmain
          rw [← hmain.2] at hx hcyc
          have hts : TreeNode.forestHasCirc ts = false := by
            rw [← hmain.1] at hnc
            simp only [TreeNode.hasCirc, Bool.or_eq_true, Bool.false_or] at hnc
            cases hcv : TreeNode.forestHasCirc ts
            · rfl
            · rw [hcv] at hnc; simp at hnc
          have hclosed := buildTreeNode_closed g (n + 1) name proc vis t v' hpv h
          by_cases hnamecyc : Relation.TransGen
              (fun a b => childStep g a b ∧ b ∈ v2 ∧ b ∉ vis) name name
          · -- a cycle through `name` itself: its predecessor on the cycle has
            -- `name` among its children while `name` is being processed
            rcases (Relation.TransGen.tail'_iff).mp hnamecyc with ⟨c, hrtg, hstepc⟩
            have hcprop : c ∈ v2 ∧ c ∉ vis := by
              rcases Relation.ReflTransGen.cases_tail hrtg with heq | hex
              · rw [heq]
                have hnv2 : name ∈ v2 := by
                  rw [hmain.2]
                  exact hclosed.1
                exact ⟨hnv2, hninvis⟩
              · obtain ⟨d, _, hdc⟩ := hex
                exact ⟨hdc.2.1, hdc.2.2⟩
            have hcircN := buildTreeNode_circN g (n + 1) name proc vis t v' hpv h
              c (hmain.2 ▸ hcprop.1) hcprop.2
              name hstepc.1 (Or.inl rfl)
            rw [hasCirc_of_hasCircN_node t name hcircN] at hnc
            simp at hnc
          · by_cases hxname : x = name
            · subst hxname
              exact hnamecyc hcyc
            · rcases transGen_avoid (C := fun v => v = name) hcyc with hleft | hmeet
              · have hxnotname : x ≠ name :=
                  transGen_last_holds (Q := fun b => b ≠ name) (fun u v hr => hr.2) hleft
                have hmono2 : Relation.TransGen
                    (fun a b => childStep g a b ∧ b ∈ v2 ∧ b ∉ name :: vis) x x := by
                  refine Relation.TransGen.mono ?_ hleft
                  rintro u v ⟨⟨hstep, hv2, hnv⟩, hne⟩
                  exact ⟨hstep, hv2, by simp [hne, hnv]⟩
                refine buildTreeChildren_noCycle (g := g)
                  (fun cc p v t2 w hcall => buildTreeNode_mono g n cc p v t2 w hcall)
                  (fun cc p v t2 w hp hcall =>
                    buildTreeNode_closed g n cc p v t2 w hp hcall)
                  (fun cc p v t2 w hp hcall hnc2 y hy hyv hcyc2 =>
                    ih cc p v t2 w hp hcall hnc2 y hy hyv hcyc2)
                  (buildAdjacencyList g name) (name :: proc) (name :: vis) ts v2
                  (List.cons_subset_cons _ hpv) hc hts x hx
                  (by simp [hxname, hxvis]) hmono2
              · obtain ⟨c, hcname, h2, h3⟩ := hmeet
                subst hcname
                exact hnamecyc (Relation.TransGen.trans_right h3 h2)

/-! ## What the text renderer prints -/

theorem renderTextNode_eq (n : String) (tbl : Option Table) (cs : List TreeNode)
    (circ shown : Bool) (pre : String) (isLast : Bool) (hn : n ≠ "orphan_tables") :
    renderTextNode (TreeNode.mk n tbl cs circ shown) pre isLast =
      (pre ++ (if isLast then "└── " else "├── ") ++ n
        ++ (if circ then " (circular reference)"
            else if shown then " (see above)" else "") ++ "\n")
      ++ (if circ = false ∧ shown = false then
            (match tbl with
             | some t => renderTableColumns t (pre ++ (if isLast then "    " else "│   "))
             | none => "")
          else "")
      ++ (if circ = false ∧ shown = false then
            renderTextChildren cs (pre ++ (if isLast then "    " else "│   "))
          else "") := by
  simp only [renderTextNode]
  rw [if_neg hn]

theorem flag_cases {circ shown : Bool} {cs : List TreeNode}
    (hflag : (!(circ || shown) || cs.isEmpty) = true) :
    (circ = false ∧ shown = false) ∨ cs = [] := by
  cases circ <;> cases shown <;> simp_all [List.isEmpty_iff]

theorem mention_textNode_self (n : String) (tbl : Option Table) (cs : List TreeNode)
    (circ shown : Bool) (pre : String) (isLast : Bool) (hn : n ≠ "orphan_tables") :
    Mention (renderTextNode (TreeNode.mk n tbl cs circ shown) pre isLast) n := by
  rw [renderTextNode_eq n tbl cs circ shown pre isLast hn]
  refine mention_append_left (mention_append_left ?_ _) _
  refine mention_append_left (mention_append_left ?_ _) _
  exact mention_append_self _ _

theorem mention_textNode_circ (n : String) (tbl : Option Table) (cs : List TreeNode)
    (shown : Bool) (pre : String) (isLast : Bool) (hn : n ≠ "orphan_tables") :
    Mention (renderTextNode (TreeNode.mk n tbl cs true shown) pre isLast)
      "(circular reference)" := by
  rw [renderTextNode_eq n tbl cs true shown pre isLast hn]
  refine mention_append_left (mention_append_left ?_ _) _
  refine mention_append_left ?_ _
  refine mention_append_right ?_ _
  have htag : (if (true : Bool) then " (circular reference)"
      else if shown then " (see above)" else "") = " (circular reference)" := rfl
  rw [htag]
  exact ⟨[' '], [], by decide⟩

theorem renderText_mentions_names :
    (∀ t : TreeNode, ∀ pre isLast x, TreeNode.renderSafe t = true →
        TreeNode.hasName t x = true → Mention (renderTextNode t pre isLast) x) ∧
      (∀ l : List TreeNode, ∀ pre x, TreeNode.forestRenderSafe l = true →
        TreeNode.forestHasName l x = true → Mention (renderTextChildren l pre) x) := by
  have hmk : ∀ (n : String) (tbl : Option Table) (cs : List TreeNode) (circ shown : Bool),
      (∀ pre x, TreeNode.forestRenderSafe cs = true →
        TreeNode.forestHasName cs x = true → Mention (renderTextChildren cs pre) x) →
      ∀ pre isLast x, TreeNode.renderSafe (TreeNode.mk n tbl cs circ shown) = true →
        TreeNode.hasName (TreeNode.mk n tbl cs circ shown) x = true →
        Mention (renderTextNode (TreeNode.mk n tbl cs circ shown) pre isLast) x := by
    intro n tbl cs circ shown hq pre isLast x hsafe hname
    simp only [TreeNode.renderSafe, Bool.and_eq_true, bne_iff_ne, ne_eq] at hsafe
    obtain ⟨⟨hn, hflag⟩, hforest⟩ := hsafe
    simp only [TreeNode.hasName, Bool.or_eq_true, beq_iff_eq] at hname
    rcases hname with rfl | hincs
    · exact mention_textNode_self n tbl cs circ shown pre isLast hn
    · rcases flag_cases hflag with hflags | hempty
      · rw [renderTextNode_eq n tbl cs circ shown pre isLast hn]
        refine mention_append_right ?_ _
        rw [if_pos hflags]
        exact hq _ x hforest hincs
      · rw [hempty] at hincs
        simp [TreeNode.forestHasName] at hincs
  have hnil : ∀ (pre x : String), TreeNode.forestRenderSafe [] = true →
      TreeNode.forestHasName [] x = true → Mention (renderTextChildren [] pre) x := by
    intro pre x _ h
    simp [TreeNode.forestHasName] at h
  have hcons : ∀ (c : TreeNode) (rest : List TreeNode),
      (∀ pre isLast x, TreeNode.renderSafe c = true →
        TreeNode.hasName c x = true → Mention (renderTextNode c pre isLast) x) →
      (∀ pre x, TreeNode.forestRenderSafe rest = true →
        TreeNode.forestHasName rest x = true → Mention (renderTextChildren rest pre) x) →
      ∀ pre x, TreeNode.forestRenderSafe (c :: rest) = true →
        TreeNode.forestHasName (c :: rest) x = true →
        Mention (renderTextChildren (c :: rest) pre) x := by
    intro c rest hp hq pre x hsafe hname
    simp only [TreeNode.forestRenderSafe, Bool.and_eq_true] at hsafe
    simp only [TreeNode.forestHasName, Bool.or_eq_true] at hname
    cases rest with
    | nil =>
      rcases hname with h1 | h2
      · simp only [renderTextChildren]
        exact hp pre true x hsafe.1 h1
      · simp [TreeNode.forestHasName] at h2
    | cons c2 rest2 =>
      simp only [renderTextChildren]
      rcases hname with h1 | h2
      · exact mention_append_left (hp pre false x hsafe.1 h1) _
      · exact mention_append_right (hq pre x hsafe.2 h2) _
  exact ⟨TreeNode.indNode
      (P := fun t => ∀ pre isLast x, TreeNode.renderSafe t = true →
        TreeNode.hasName t x = true → Mention (renderTextNode t pre isLast) x)
      (Q := fun l => ∀ pre x, TreeNode.forestRenderSafe l = true →
        TreeNode.forestHasName l x = true → Mention (renderTextChildren l pre) x)
      (fun n tbl cs circ shown hq => hmk n tbl cs circ shown hq) hnil hcons,
    TreeNode.indForest
      (P := fun t => ∀ pre isLast x, TreeNode.renderSafe t = true →
        TreeNode.hasName t x = true → Mention (renderTextNode t pre isLast) x)
      (Q := fun l => ∀ pre x, TreeNode.forestRenderSafe l = true →
        TreeNode.forestHasName l x = true → Mention (renderTextChildren l pre) x)
      (fun n tbl cs circ shown hq => hmk n tbl cs circ shown hq) hnil hcons⟩

theorem renderText_mentions_circ :
    (∀ t : TreeNode, ∀ pre isLast, TreeNode.renderSafe t = true →
        TreeNode.hasCirc t = true →
        Mention (renderTextNode t pre isLast) "(circular reference)") ∧
      (∀ l : List TreeNode, ∀ pre, TreeNode.forestRenderSafe l = true →
        TreeNode.forestHasCirc l = true →
        Mention (renderTextChildren l pre) "(circular reference)") := by
  have hmk : ∀ (n : String) (tbl : Option Table) (cs : List TreeNode) (circ shown : Bool),
      (∀ pre, TreeNode.forestRenderSafe cs = true →
        TreeNode.forestHasCirc cs = true →
        Mention (renderTextChildren cs pre) "(circular reference)") →
      ∀ pre isLast, TreeNode.renderSafe (TreeNode.mk n tbl cs circ shown) = true →
        TreeNode.hasCirc (TreeNode.mk n tbl cs circ shown) = true →
        Mention (renderTextNode (TreeNode.mk n tbl cs circ shown) pre isLast)
          "(circular reference)" := by
    intro n tbl cs circ shown hq pre isLast hsafe hcirc
    simp only [TreeNode.renderSafe, Bool.and_eq_true, bne_iff_ne, ne_eq] at hsafe
    obtain ⟨⟨hn, hflag⟩, hforest⟩ := hsafe
    simp only [TreeNode.hasCirc, Bool.or_eq_true] at hcirc
    cases hcv : circ
    · rw [hcv] at hcirc
      rcases hcirc with h1 | h2
      · simp at h1
      · rcases flag_cases (by rw [hcv] at hflag; exact hflag) with hflags | hempty
        · rw [renderTextNode_eq n tbl cs false shown pre isLast hn]
          refine mention_append_right ?_ _
          rw [if_pos hflags]
          exact hq _ hforest h2
        · rw [hempty] at h2
          simp [TreeNode.forestHasCirc] at h2
    · exact mention_textNode_circ n tbl cs shown pre isLast hn
  have hnil : ∀ (pre : String), TreeNode.forestRenderSafe ([] : List TreeNode) = true →
      TreeNode.forestHasCirc [] = true →
      Mention (renderTextChildren [] pre) "(circular reference)" := by
    intro pre _ h
    simp [TreeNode.forestHasCirc] at h
  have hcons : ∀ (c : TreeNode) (rest : List TreeNode),
      (∀ pre isLast, TreeNode.renderSafe c = true → TreeNode.hasCirc c = true →
        Mention (renderTextNode c pre isLast) "(circular reference)") →
      (∀ pre, TreeNode.forestRenderSafe rest = true →
        TreeNode.forestHasCirc rest = true →
        Mention (renderTextChildren rest pre) "(circular reference)") →
      ∀ pre, TreeNode.forestRenderSafe (c :: rest) = true →
        TreeNode.forestHasCirc (c :: rest) = true →
        Mention (renderTextChildren (c :: rest) pre) "(circular reference)" := by
    intro c rest hp hq pre hsafe hcirc
    simp only [TreeNode.forestRenderSafe, Bool.and_eq_true] at hsafe
    simp only [TreeNode.forestHasCirc, Bool.or_eq_true] at hcirc
    cases rest with
    | nil =>
      rcases hcirc with h1 | h2
      · simp only [renderTextChildren]
        exact hp pre true hsafe.1 h1
      · simp [TreeNode.forestHasCirc] at h2
    | cons c2 rest2 =>
      simp only [renderTextChildren]
      rcases hcirc with h1 | h2
      · exact mention_append_left (hp pre false hsafe.1 h1) _
      · exact mention_append_right (hq pre hsafe.2 h2) _
  exact ⟨TreeNode.indNode
      (P := fun t => ∀ pre isLast, TreeNode.renderSafe t = true →
        TreeNode.hasCirc t = true →
        Mention (renderTextNode t pre isLast) "(circular reference)")
      (Q := fun l => ∀ pre, TreeNode.forestRenderSafe l = true →
        TreeNode.forestHasCirc l = true →
        Mention (renderTextChildren l pre) "(circular reference)")
      (fun n tbl cs circ shown hq => hmk n tbl cs circ shown hq) hnil hcons,
    TreeNode.indForest
      (P := fun t => ∀ pre isLast, TreeNode.renderSafe t = true →
        TreeNode.hasCirc t = true →
        Mention (renderTextNode t pre isLast) "(circular reference)")
      (Q := fun l => ∀ pre, TreeNode.forestRenderSafe l = true →
        TreeNode.forestHasCirc l = true →
        Mention (renderTextChildren l pre) "(circular reference)")
      (fun n tbl cs circ shown hq => hmk n tbl cs circ shown hq) hnil hcons⟩

/-! ## What the JSON tree renderer keeps -/

theorem convertNode_hasName :
    (∀ t : TreeNode, ∀ x, TreeNode.renderSafe t = true → TreeNode.hasName t x = true →
        JsonTable.hasName (convertNode t) x = true) ∧
      (∀ l : List TreeNode, ∀ x, TreeNode.forestRenderSafe l = true →
        TreeNode.forestHasName l x = true →
        JsonTable.forestHasName (convertChildren l) x = true) := by
  have hmk : ∀ (n : String) (tbl : Option Table) (cs : List TreeNode) (circ shown : Bool),
      (∀ x, TreeNode.forestRenderSafe cs = true → TreeNode.forestHasName cs x = true →
        JsonTable.forestHasName (convertChildren cs) x = true) →
      ∀ x, TreeNode.renderSafe (TreeNode.mk n tbl cs circ shown) = true →
        TreeNode.hasName (TreeNode.mk n tbl cs circ shown) x = true →
        JsonTable.hasName (convertNode (TreeNode.mk n tbl cs circ shown)) x = true := by
    intro n tbl cs circ shown hq x hsafe hname
    simp only [TreeNode.renderSafe, Bool.and_eq_true, bne_iff_ne, ne_eq] at hsafe
    obtain ⟨⟨hn, hflag⟩, hforest⟩ := hsafe
    simp only [TreeNode.hasName, Bool.or_eq_true, beq_iff_eq] at hname
    simp only [convertNode, JsonTable.hasName, Bool.or_eq_true, beq_iff_eq]
    rcases hname with rfl | hincs
    · exact Or.inl rfl
    · rcases flag_cases hflag with hflags | hempty
      · rw [if_pos hflags]
        exact Or.inr (hq x hforest hincs)
      · rw [hempty] at hincs
        simp [TreeNode.forestHasName] at hincs
  have hnil : ∀ (x : String), TreeNode.forestRenderSafe [] = true →
      TreeNode.forestHasName [] x = true →
      JsonTable.forestHasName (convertChildren []) x = true := by
    intro x _ h
    simp [TreeNode.forestHasName] at h
  have hcons : ∀ (c : TreeNode) (rest : List TreeNode),
      (∀ x, TreeNode.renderSafe c = true → TreeNode.hasName c x = true →
        JsonTable.hasName (convertNode c) x = true) →
      (∀ x, TreeNode.forestRenderSafe rest = true →
        TreeNode.forestHasName rest x = true →
        JsonTable.forestHasName (convertChildren rest) x = true) →
      ∀ x, TreeNode.forestRenderSafe (c :: rest) = true →
        TreeNode.forestHasName (c :: rest) x = true →
        JsonTable.forestHasName (convertChildren (c :: rest)) x = true := by
    intro c rest hp hq x hsafe hname
    simp only [TreeNode.forestRenderSafe, Bool.and_eq_true] at hsafe
    simp only [TreeNode.forestHasName, Bool.or_eq_true] at hname
    simp only [convertChildren, JsonTable.forestHasName, Bool.or_eq_true]
    rcases hname with h1 | h2
    · exact Or.inl (hp x hsafe.1 h1)
    · exact Or.inr (hq x hsafe.2 h2)
  exact ⟨TreeNode.indNode
      (P := fun t => ∀ x, TreeNode.renderSafe t = true → TreeNode.hasName t x = true →
        JsonTable.hasName (convertNode t) x = true)
      (Q := fun l => ∀ x, TreeNode.forestRenderSafe l = true →
        TreeNode.forestHasName l x = true →
        JsonTable.forestHasName (convertChildren l) x = true)
      (fun n tbl cs circ shown hq => hmk n tbl cs circ shown hq) hnil hcons,
    TreeNode.indForest
      (P := fun t => ∀ x, TreeNode.renderSafe t = true → TreeNode.hasName t x = true →
        JsonTable.hasName (convertNode t) x = true)
      (Q := fun l => ∀ x, TreeNode.forestRenderSafe l = true →
        TreeNode.forestHasName l x = true →
        JsonTable.forestHasName (convertChildren l) x = true)
      (fun n tbl cs circ shown hq => hmk n tbl cs circ shown hq) hnil hcons⟩

theorem convertChildren_eq_map :
    ∀ l : List TreeNode, convertChildren l = l.map convertNode := by
  intro l
  induction l with
  | nil => rfl
  | cons c rest ih => simp [convertChildren, ih]

theorem jsonTreeResult_eq (root : TreeNode) (dbName : String)
    (hsafe : ∀ c ∈ root.children, c.tableName ≠ "orphan_tables") :
    jsonTreeResult root dbName =
      { database := dbName, tables := root.children.map convertNode, orphans := [] } := by
  unfold jsonTreeResult
  suffices h : ∀ (cs : List TreeNode) (res : JsonTreeResult),
      (∀ c ∈ cs, c.tableName ≠ "orphan_tables") →
      cs.foldl (fun res child =>
        if child.tableName = "orphan_tables" then
          { res with orphans := res.orphans ++ child.children.map convertNode }
        else
          { res with tables := res.tables ++ [convertNode child] }) res
        = { res with tables := res.tables ++ cs.map convertNode } by
    rw [h root.children _ hsafe]
    simp
  intro cs
  induction cs with
  | nil => intro res _; simp
  | cons c rest ih =>
    intro res hs
    simp only [List.foldl_cons]
    rw [if_neg (hs c (by simp))]
    rw [ih _ (fun a ha => hs a (by simp [ha]))]
    simp [List.append_assoc]

/-! ## The two branches of `buildTree` (and the dead orphan bucket) -/

theorem buildTree_roots_case (g : SchemaGraph)
    (hbr : ¬(findRootTables g = [] ∧ g.nodes ≠ [])) :
    ∃ ts v,
      buildTreeChildren (buildTreeNode g (treeFuel g)) (findRootTables g) [] []
        = some (ts, v) ∧
      buildTree g = some (TreeNode.mk g.databaseName none ts false false) := by
  have hsome := buildTreeChildren_treeFuel_isSome g rootTables_in_univ [] []
  cases hc : buildTreeChildren (buildTreeNode g (treeFuel g)) (findRootTables g) [] [] with
  | none => rw [hc] at hsome; simp at hsome
  | some tsv =>
    obtain ⟨ts, v⟩ := tsv
    refine ⟨ts, v, rfl, ?_⟩
    have horph := findOrphanTables_roots_case g hc
    simp only [buildTree]
    rw [if_neg hbr, hc]
    simp [horph]

theorem buildTree_noroots_case (g : SchemaGraph)
    (h1 : findRootTables g = []) (h2 : g.nodes ≠ []) :
    ∃ t v, buildTreeNode g (treeFuel g) (firstTableName g) [] [] = some (t, v) ∧
      buildTree g = some t := by
  have hmem : firstTableName g ∈ traversalUniv g :=
    mem_traversalUniv_of_key (firstTableName_mem h2)
  have hsome := buildTreeNode_treeFuel_isSome g hmem [] []
  cases hc : buildTreeNode g (treeFuel g) (firstTableName g) [] [] with
  | none => rw [hc] at hsome; simp at hsome
  | some tv =>
    obtain ⟨t, v⟩ := tv
    refine ⟨t, v, rfl, ?_⟩
    have horph := findOrphanTables_noroots_case g h1 v
    simp only [buildTree]
    rw [if_pos ⟨h1, h2⟩, hc]
    simp [horph]

theorem buildTree_isSome (g : SchemaGraph) : (buildTree g).isSome := by
  by_cases hbr : findRootTables g = [] ∧ g.nodes ≠ []
  · obtain ⟨t, v, _, heq⟩ := buildTree_noroots_case g hbr.1 hbr.2
    rw [heq]
    rfl
  · obtain ⟨ts, v, _, heq⟩ := buildTree_roots_case g hbr
    rw [heq]
    rfl

/-! ## `Build` support lemmas -/

theorem foldl_opt_append {α β : Type} (step : List β → α → List β) (f : α → Option β)
    (hstep : ∀ es c, step es c = es ++ (f c).toList) :
    ∀ (l : List α) (acc : List β), l.foldl step acc = acc ++ l.filterMap f := by
  intro l
  induction l with
  | nil => intro acc; simp
  | cons c rest ih =>
    intro acc
    simp only [List.foldl_cons, hstep]
    rw [ih]
    cases hf : f c <;> simp [List.filterMap_cons, hf, List.append_assoc]

theorem mapFind?_insert_self (m : List (String × Table)) (k : String) (v : Table) :
    mapFind? (mapInsert m k v) k = some v := by
  induction m with
  | nil => simp [mapInsert, mapFind?]
  | cons p rest ih =>
    obtain ⟨k', v'⟩ := p
    by_cases hk : k' = k
    · simp [mapInsert, hk, mapFind?]
    · simp [mapInsert, hk, mapFind?, ih]

theorem mapFind?_insert_isSome (m : List (String × Table)) (k k' : String) (v : Table)
    (h : (mapFind? m k').isSome) : (mapFind? (mapInsert m k v) k').isSome := by
  induction m with
  | nil => simp [mapFind?] at h
  | cons p rest ih =>
    obtain ⟨k0, v0⟩ := p
    by_cases hk0 : k0 = k
    · subst hk0
      by_cases hk' : k0 = k'
      · subst hk'
        simp only [mapInsert, if_pos rfl, mapFind?]
        by_cases hkk : k0 = k0
        · simp [hkk]
        · exact absurd rfl hkk
      · simp only [mapFind?, if_neg hk'] at h
        simp only [mapInsert, if_pos rfl, mapFind?, if_neg hk']
        exact h
    · by_cases hk' : k0 = k'
      · subst hk'
        simp only [mapInsert, if_neg hk0, mapFind?, if_pos rfl]
        rfl
      · simp only [mapFind?, if_neg hk'] at h
        simp only [mapInsert, if_neg hk0, mapFind?, if_neg hk']
        exact ih h

theorem mapFind?_foldl_insert_isSome :
    ∀ (tables : List Table) (m : List (String × Table)) (k : String),
      (mapFind? m k).isSome ∨ (∃ t ∈ tables, t.name = k) →
      (mapFind? (tables.foldl (fun m t => mapInsert m t.name t) m) k).isSome := by
  intro tables
  induction tables with
  | nil =>
    intro m k h
    rcases h with h | ⟨t, ht, _⟩
    · exact h
    · simp at ht
  | cons t rest ih =>
    intro m k h
    simp only [List.foldl_cons]
    apply ih
    rcases h with h | ⟨t', ht', hname⟩
    · exact Or.inl (mapFind?_insert_isSome m t.name k t h)
    · rcases List.mem_cons.mp ht' with rfl | hmem
      · subst hname
        refine Or.inl ?_
        rw [mapFind?_insert_self]
        rfl
      · exact Or.inr ⟨t', hmem, hname⟩

theorem buildNodes_isSome {db : Database} {t : Table} (h : t ∈ db.tables) :
    (mapFind? (buildNodes db) t.name).isSome :=
  mapFind?_foldl_insert_isSome db.tables [] t.name (Or.inr ⟨t, h, rfl⟩)

theorem build_edges_eq (db : Database) :
    ∀ (tables : List Table) (acc : List ForeignKeyEdge),
      tables.foldl (fun es t =>
        t.constraints.foldl (fun es c =>
          if c.kind = ConstraintKind.foreignKey then
            if (mapFind? (buildNodes db) c.referenceTable).isSome then
              es ++ [{ fromTable := t.name, toTable := c.referenceTable,
                       columns := c.columns, referenceColumns := c.referenceColumns }]
            else es
          else es) es) acc
      = acc ++ tables.flatMap (fun t =>
          t.constraints.filterMap (buildEdgeOf (buildNodes db) t)) := by
  intro tables
  induction tables with
  | nil => intro acc; simp
  | cons t rest ih =>
    intro acc
    simp only [List.foldl_cons]
    rw [foldl_opt_append _ (buildEdgeOf (buildNodes db) t) (fun es c => by
      simp only [buildEdgeOf]
      by_cases h1 : c.kind = ConstraintKind.foreignKey
      · by_cases h2 : (mapFind? (buildNodes db) c.referenceTable).isSome
        · simp [h1, h2]
        · simp [h1, h2]
      · simp [h1])]
    rw [ih]
    simp [List.append_assoc]

/-! ## Flat renderer support -/

theorem flatJsonResult_tables (g : SchemaGraph) :
    (flatJsonResult g).tables.map JsonFlatTable.name = getSortedTableNames g ∧
      (flatJsonResult g).tables.length = (getSortedTableNames g).length := by
  suffices h : ∀ (names : List String) (acc : List JsonFlatTable),
      (names.foldl (fun acc tn =>
        match mapFind? g.nodes tn with
        | some t => acc ++ [{ name := tn, columns := t.columns.map (jsonColumnOf t) }]
        | none => acc ++ [{ name := tn, columns := [] }]) acc).map JsonFlatTable.name
        = acc.map JsonFlatTable.name ++ names ∧
      (names.foldl (fun acc tn =>
        match mapFind? g.nodes tn with
        | some t => acc ++ [{ name := tn, columns := t.columns.map (jsonColumnOf t) }]
        | none => acc ++ [{ name := tn, columns := [] }]) acc).length
        = acc.length + names.length by
    have h2 := h (getSortedTableNames g) []
    simp only [List.map_nil, List.nil_append, List.length_nil, Nat.zero_add] at h2
    exact ⟨h2.1, h2.2⟩
  intro names
  induction names with
  | nil => intro acc; simp
  | cons tn rest ih =>
    intro acc
    simp only [List.foldl_cons]
    cases hf : mapFind? g.nodes tn with
    | none =>
      simp only [hf]
      refine ⟨?_, ?_⟩
      · rw [(ih _).1]
        simp [JsonFlatTable.name]
      · rw [(ih _).2]
        simp only [List.length_append, List.length_cons, List.length_nil]
        omega
    | some t =>
      simp only [hf]
      refine ⟨?_, ?_⟩
      · rw [(ih _).1]
        simp [JsonFlatTable.name]
      · rw [(ih _).2]
        simp only [List.length_append, List.length_cons, List.length_nil]
        omega

/-! ## Reference-annotation omission (guarded indexing) -/

theorem foldl_congr_id {α β : Type} (f : β → α → β) (l : List α)
    (h : ∀ b, ∀ a ∈ l, f b a = b) : ∀ b, l.foldl f b = b := by
  induction l with
  | nil => intro b; rfl
  | cons a rest ih =>
    intro b
    simp only [List.foldl_cons, h b a (by simp)]
    exact ih (fun b a ha => h b a (by simp [ha])) b

theorem fkRefText_empty (c : Constraint) (colName : String)
    (h : ∀ jc ∈ c.columns.enum, jc.2 = colName → c.referenceColumns.length ≤ jc.1) :
    fkRefText c colName = "" := by
  unfold fkRefText
  apply foldl_congr_id
  intro sb jc hjc
  rw [if_neg]
  rintro ⟨hcol, hlt⟩
  exact absurd hlt (Nat.not_lt.mpr (h jc hjc hcol))

theorem jsonColumnOf_reference_empty (t : Table) (col : Column)
    (h : ∀ c ∈ t.constraints, ∀ jc ∈ c.columns.enum, jc.2 = col.name →
      c.referenceColumns.length ≤ jc.1) :
    (jsonColumnOf t col).reference = "" := by
  unfold jsonColumnOf
  apply foldl_congr_id
  intro acc c hc
  by_cases hk : c.kind = ConstraintKind.foreignKey
  · rw [if_pos hk]
    apply foldl_congr_id
    intro acc2 jc hjc
    rw [if_neg]
    rintro ⟨hcol, hlt⟩
    exact absurd hlt (Nat.not_lt.mpr (h c hc jc hjc hcol))
  · rw [if_neg hk]

/-! # Claim theorems -/

/-- C5: `Render` applied to a nil schema graph returns an error (no output can
accompany an `Except.error`), for every format and shape, and `Build` applied
to a nil database returns an error.  Both are total Lean functions, the
embedded counterpart of "neither operation panics". -/
theorem C5_nil_rejected :
    ∀ (d2compile : String → Except String String) (format shape : String),
      Render d2compile none format shape = Except.error "schema graph cannot be nil" ∧
        Build none = Except.error "database is nil" :=
  fun _ _ _ => ⟨rfl, rfl⟩

/-- C4: for every non-nil schema graph, `Render` with format `json` and shape
`graph` returns an error (and no output), and every (format, shape) pair
outside the defined matrix — other than (json, graph), which gets its own
message — returns the error naming the unsupported combination. -/
theorem C4_unsupported_combinations :
    ∀ (d2compile : String → Except String String) (g : SchemaGraph),
      Render d2compile (some g) FormatJSON ShapeGraph
        = Except.error "graph shape is only supported with text format" ∧
      ∀ format shape,
        (format, shape) ∉ [(FormatText, ShapeTree), (FormatJSON, ShapeTree),
          (FormatText, ShapeFlat), (FormatJSON, ShapeFlat),
          (FormatText, ShapeGraph), (FormatJSON, ShapeGraph)] →
        Render d2compile (some g) format shape
          = Except.error ("unsupported format/shape combination: "
              ++ format ++ "/" ++ shape) := by
  intro d2 g
  constructor
  · rfl
  · intro f sh hnot
    have h1 : ¬(f = FormatText ∧ sh = ShapeTree) :=
      fun ⟨hf, hs⟩ => hnot (by simp [hf, hs])
    have h2 : ¬(f = FormatJSON ∧ sh = ShapeTree) :=
      fun ⟨hf, hs⟩ => hnot (by simp [hf, hs])
    have h3 : ¬(f = FormatText ∧ sh = ShapeFlat) :=
      fun ⟨hf, hs⟩ => hnot (by simp [hf, hs])
    have h4 : ¬(f = FormatJSON ∧ sh = ShapeFlat) :=
      fun ⟨hf, hs⟩ => hnot (by simp [hf, hs])
    have h5 : ¬(f = FormatText ∧ sh = ShapeGraph) :=
      fun ⟨hf, hs⟩ => hnot (by simp [hf, hs])
    have h6 : ¬(f = FormatJSON ∧ sh = ShapeGraph) :=
      fun ⟨hf, hs⟩ => hnot (by simp [hf, hs])
    simp only [Render]
    rw [if_neg h1, if_neg h2, if_neg h3, if_neg h4, if_neg h5, if_neg h6]

/-- Witness for C4 at the concrete pair ("xml", "tree"). -/
theorem C4_witness :
    Render (fun s => Except.ok s) (some deptEmpGraph) "xml" "tree"
      = Except.error ("unsupported format/shape combination: " ++ "xml" ++ "/" ++ "tree") :=
  (C4_unsupported_combinations (fun s => Except.ok s) deptEmpGraph).2 "xml" "tree"
    (by decide)

/-- C7: every edge of the graph `Build` produces has both endpoints present as
keys in `Nodes` — a foreign-key constraint whose referenced table is missing
yields no edge (dropped silently, `Build` still succeeds) — and the edge list
is exactly the (table, constraint) declaration-order traversal. -/
theorem C7_build_edges_wellformed :
    ∀ db : Database, ∃ g : SchemaGraph,
      Build (some db) = Except.ok g ∧
      (∀ e ∈ g.edges, (mapFind? g.nodes e.fromTable).isSome ∧
        (mapFind? g.nodes e.toTable).isSome) ∧
      g.edges = db.tables.flatMap (fun t =>
        t.constraints.filterMap (buildEdgeOf (buildNodes db) t)) := by
  intro db
  refine ⟨{ databaseName := db.name, nodes := buildNodes db,
            edges := db.tables.foldl (fun es t =>
              t.constraints.foldl (fun es c =>
                if c.kind = ConstraintKind.foreignKey then
                  if (mapFind? (buildNodes db) c.referenceTable).isSome then
                    es ++ [{ fromTable := t.name, toTable := c.referenceTable,
                             columns := c.columns, referenceColumns := c.referenceColumns }]
                  else es
                else es) es) [] }, rfl, ?_, ?_⟩
  · intro e he
    simp only [build_edges_eq db db.tables [], List.nil_append] at he
    rw [List.mem_flatMap] at he
    obtain ⟨t, ht, he2⟩ := he
    rw [List.mem_filterMap] at he2
    obtain ⟨c, hc, hce⟩ := he2
    simp only [buildEdgeOf] at hce
    split at hce
    · split at hce
      · rename_i hsome
        simp only [Option.some.injEq] at hce
        rw [← hce]
        exact ⟨buildNodes_isSome ht, hsome⟩
      · exact absurd hce (by simp)
    · exact absurd hce (by simp)
  · simpa using build_edges_eq db db.tables []

/-- Witness for C7 on a schema with one valid and one dangling foreign key:
`Build` succeeds, keeps only the valid `posts → users` edge, and both of that
edge's endpoints are in the node map. -/
theorem C7_witness :
    ∃ g : SchemaGraph,
      Build (some dbDangling) = Except.ok g ∧
      g.edges = [(⟨"posts", "users", ["user_id"], ["id"]⟩ : ForeignKeyEdge)] ∧
      (mapFind? g.nodes "posts").isSome = true ∧
      (mapFind? g.nodes "users").isSome = true := by
  obtain ⟨g, h1, h2, h3⟩ := C7_build_edges_wellformed dbDangling
  refine ⟨g, h1, ?_, ?_, ?_⟩
  · rw [h3]
    rfl
  · have hmem : (⟨"posts", "users", ["user_id"], ["id"]⟩ : ForeignKeyEdge) ∈ g.edges := by
      rw [h3]
      decide
    exact (h2 _ hmem).1
  · have hmem : (⟨"posts", "users", ["user_id"], ["id"]⟩ : ForeignKeyEdge) ∈ g.edges := by
      rw [h3]
      decide
    exact (h2 _ hmem).2

/-- C8: the flat renderers list exactly `len(G.Nodes)` tables in lexicographic
order: `getSortedTableNames` (which both flat renderers iterate) is sorted, a
permutation of the node keys, and of the same length as the node map, and the
flat JSON result's table list follows it one-for-one. -/
theorem C8_flat_sorted_complete (g : SchemaGraph) :
    List.Sorted strLeR (getSortedTableNames g) ∧
    (getSortedTableNames g).Perm (g.nodes.map Prod.fst) ∧
    (getSortedTableNames g).length = g.nodes.length ∧
    (flatJsonResult g).tables.map JsonFlatTable.name = getSortedTableNames g ∧
    (flatJsonResult g).tables.length = g.nodes.length := by
  have hperm : (getSortedTableNames g).Perm (g.nodes.map Prod.fst) :=
    sortStrings_perm (g.nodes.map Prod.fst)
  have hlen : (getSortedTableNames g).length = g.nodes.length := by
    rw [List.Perm.length_eq hperm, List.length_map]
  refine ⟨sortStrings_sorted _, hperm, hlen, (flatJsonResult_tables g).1, ?_⟩
  rw [(flatJsonResult_tables g).2, hlen]

/-- C10: a foreign key with more local columns than reference columns is
rendered without the reference annotation at positions at or beyond
`len(ReferenceColumns)` (both the text annotation and the JSON `reference`
field stay empty), and rendering never fails: the tree and flat renderers
return `ok` on every schema graph. -/
theorem C10_reference_guard :
    (∀ (c : Constraint) (colName : String),
      (∀ jc ∈ c.columns.enum, jc.2 = colName → c.referenceColumns.length ≤ jc.1) →
      fkRefText c colName = "") ∧
    (∀ (t : Table) (col : Column),
      (∀ c ∈ t.constraints, ∀ jc ∈ c.columns.enum, jc.2 = col.name →
        c.referenceColumns.length ≤ jc.1) →
      (jsonColumnOf t col).reference = "") ∧
    (∀ (d2compile : String → Except String String) (g : SchemaGraph),
      (Render d2compile (some g) FormatText ShapeTree).isOk = true ∧
      (Render d2compile (some g) FormatJSON ShapeTree).isOk = true ∧
      (Render d2compile (some g) FormatJSON ShapeFlat).isOk = true) := by
  refine ⟨fkRefText_empty, jsonColumnOf_reference_empty, ?_⟩
  intro d2 g
  have hsome := buildTree_isSome g
  cases ht : buildTree g with
  | none => rw [ht] at hsome; simp at hsome
  | some t =>
    refine ⟨?_, ?_, ?_⟩
    · simp [Render, FormatText, FormatJSON, ShapeTree, ShapeFlat, ht, Except.isOk, Except.toBool]
    · simp [Render, FormatText, FormatJSON, ShapeTree, ShapeFlat, ht, Except.isOk, Except.toBool]
    · simp [Render, FormatText, FormatJSON, ShapeTree, ShapeFlat, Except.isOk, Except.toBool]

/-- Witness for C10 on a two-local/one-reference-column foreign key. -/
theorem C10_witness :
    fkRefText (fkOn ["x", "y"] "u" ["uid"]) "y" = "" ∧
    (jsonColumnOf lopsidedTable (intCol "y")).reference = "" ∧
    (Render (fun s => Except.ok s) (some lopsidedGraph) FormatText ShapeTree).isOk
      = true :=
  ⟨C10_reference_guard.1 _ "y" (by decide),
    C10_reference_guard.2.1 lopsidedTable (intCol "y") (by decide),
    (C10_reference_guard.2.2 (fun s => Except.ok s) lopsidedGraph).1⟩

/-- C9 counterexample: the graph-shape renderer does not order tables by the
spec's Kahn algorithm.  For the schema `a → b`, Kahn (in-degree on the from
table) puts `b` first, but the generated D2 source defines `a` before `b`
(tables are emitted in sorted-name order). -/
theorem C9_counterexample :
    getSortedTableNames twoTableGraph = ["a", "b"] ∧
    kahnSortSpec twoTableGraph.edges ["a", "b"] 2 [] = ["b", "a"] ∧
    generateD2Diagram twoTableGraph =
      "direction: left\n\na: \x7b\n  shape: sql_table\n\x7d\n\nb: \x7b\n  shape: sql_table\n\x7d\n\n" ∧
    (["a", "b"] : List String) ≠ ["b", "a"] := by
  refine ⟨?_, ?_, rfl, by decide⟩
  · rfl
  · rfl

/-- C9 (amended): the tables of the D2 source are emitted in lexicographic
name order (sorted permutation of the node keys), and the graph-shape render
is exactly the external D2 pipeline applied to that source — no topological
ordering happens in this repository. -/
theorem C9_amended_lexicographic (g : SchemaGraph)
    (d2compile : String → Except String String) :
    List.Sorted strLeR (getSortedTableNames g) ∧
    (getSortedTableNames g).Perm (g.nodes.map Prod.fst) ∧
    Render d2compile (some g) FormatText ShapeGraph
      = d2compile (generateD2Diagram g) := by
  refine ⟨sortStrings_sorted _, sortStrings_perm _, ?_⟩
  rfl

theorem buildTreeNode_main_shape (g : SchemaGraph) :
    ∀ fuel name proc vis t v', name ∉ proc → name ∉ vis →
      buildTreeNode g fuel name proc vis = some (t, v') →
      ∃ cs, t = TreeNode.mk name (mapFind? g.nodes name) cs false false := by
  intro fuel name proc vis t v' hnp hnv h
  cases fuel with
  | zero => exact absurd h (by simp [buildTreeNode])
  | succ n =>
    simp only [buildTreeNode, if_neg hnp, if_neg hnv] at h
    cases hc : buildTreeChildren (buildTreeNode g n)
        (buildAdjacencyList g name) (name :: proc) (name :: vis) with
    | none => rw [hc] at h; exact absurd h (by simp)
    | some tsv =>
      obtain ⟨ts, v2⟩ := tsv
      rw [hc] at h
      simp only [Option.some.injEq, Prod.mk.injEq] at h
      exact ⟨ts, h.1.symm⟩

theorem forestRenderSafe_names (l : List TreeNode)
    (h : TreeNode.forestRenderSafe l = true) :
    ∀ c ∈ l, c.tableName ≠ "orphan_tables" := by
  induction l with
  | nil => intro c hc; simp at hc
  | cons c0 rest ih =>
    intro c hc
    simp only [TreeNode.forestRenderSafe, Bool.and_eq_true] at h
    rcases List.mem_cons.mp hc with rfl | hmem
    · obtain ⟨n, tbl, cs, cc, ss⟩ := c
      simp only [TreeNode.renderSafe, Bool.and_eq_true, bne_iff_ne, ne_eq] at h
      simp only [TreeNode.tableName]
      exact h.1.1.1
    · exact ih h.2 c hmem

set_option maxRecDepth 8192 in
/-- C3: for every schema graph with a cycle of the display child relation
reachable from a root (the child relation is the edge relation reversed, so
this is exactly a foreign-key cycle whose tables end up under a root), the
tree construction terminates and the text output carries the circular marker;
the traversal in fact terminates on every graph; and in the concrete
departments/employees scenario the text tree shows the marker and both table
names. -/
theorem C3_cycle_marker :
    (∀ g : SchemaGraph,
      (∀ p ∈ g.nodes, p.1 ≠ "orphan_tables") →
      (∀ e ∈ g.edges, e.fromTable ≠ "orphan_tables") →
      ∀ r x, r ∈ findRootTables g →
        Relation.ReflTransGen (childStep g) r x →
        Relation.TransGen (childStep g) x x →
        ∃ t, buildTree g = some t ∧
          Mention (renderTreeAsText t g.databaseName) "(circular reference)") ∧
    (∀ g : SchemaGraph, (buildTree g).isSome = true) ∧
    (Build (some deptEmpDb) = Except.ok deptEmpGraph ∧
      ∃ out, Render (fun s => Except.ok s) (some deptEmpGraph) FormatText ShapeTree
          = Except.ok out ∧
        Mention out "(circular reference)" ∧ Mention out "departments" ∧
        Mention out "employees") := by
  refine ⟨?_, fun g => buildTree_isSome g, rfl,
    "circular_db\n└── employees\n    ├── id (int) PRIMARY KEY\n    └── dept_id (int) → departments.id\n    └── departments (circular reference)\n",
    rfl, by decide, by decide, by decide⟩
  intro g hnodes hedges r x hr hreach hcyc
  have hbr : ¬(findRootTables g = [] ∧ g.nodes ≠ []) := by
    rintro ⟨h1, _⟩
    rw [h1] at hr
    simp at hr
  obtain ⟨ts, v, hc, heq⟩ := buildTree_roots_case g hbr
  refine ⟨_, heq, ?_⟩
  have hlist := buildTreeChildren_closed (g := g)
    (fun c p vv t w hcall => buildTreeNode_mono g (treeFuel g) c p vv t w hcall)
    (fun c p vv t w hp hcall => buildTreeNode_closed g (treeFuel g) c p vv t w hp hcall)
    (findRootTables g) [] [] ts v (by simp) hc
  have hrv : r ∈ v := hlist.1 r hr
  have hclosure : ∀ z ∈ v, ∀ y ∈ buildAdjacencyList g z, y ∈ v := by
    intro z hz y hy
    exact hlist.2 z hz (by simp) y hy
  have hxv : x ∈ v := reach_mem_of_closed hclosure hrv hreach
  have hrestrict := transGen_restrict (P := fun z => z ∈ v)
    (fun a b ha hr2 => hclosure a ha b hr2) hxv hcyc
  have hcycv : Relation.TransGen
      (fun a b => childStep g a b ∧ b ∈ v ∧ b ∉ ([] : List String)) x x := by
    refine Relation.TransGen.mono ?_ hrestrict
    rintro u w ⟨hs, _, hw⟩
    exact ⟨hs, hw, by simp⟩
  have hcircforest : TreeNode.forestHasCirc ts = true := by
    by_contra hcontra
    have hfalse : TreeNode.forestHasCirc ts = false := by
      cases hcv : TreeNode.forestHasCirc ts
      · rfl
      · exact absurd hcv hcontra
    exact buildTreeChildren_noCycle (g := g)
      (fun c p vv t w hcall => buildTreeNode_mono g (treeFuel g) c p vv t w hcall)
      (fun c p vv t w hp hcall => buildTreeNode_closed g (treeFuel g) c p vv t w hp hcall)
      (fun c p vv t w hp hcall hnc2 y hy hyv hcyc2 =>
        buildTreeNode_noCycle g (treeFuel g) c p vv t w hp hcall hnc2 y hy hyv hcyc2)
      (findRootTables g) [] [] ts v (by simp) hc hfalse x hxv (by simp) hcycv
  have hsafe : TreeNode.forestRenderSafe ts = true := by
    refine buildTreeChildren_renderSafe
      (fun c p vv t w hcn hcall =>
        buildTreeNode_renderSafe g hedges (treeFuel g) c p vv t w hcn hcall)
      _ _ _ _ _ ?_ hc
    intro c hcr
    have hck := (findRootTables_iff.mp hcr).1
    rw [List.mem_map] at hck
    obtain ⟨p, hp, hpc⟩ := hck
    rw [← hpc]
    exact hnodes p hp
  have hmention := renderText_mentions_circ.2 ts "" hsafe hcircforest
  show Mention (renderTreeAsText (TreeNode.mk g.databaseName none ts false false)
    g.databaseName) "(circular reference)"
  unfold renderTreeAsText
  simp only [TreeNode.children]
  exact mention_append_right hmention _

/-- Witness for C3 on a graph with a root `r` and a reachable `a ↔ b` cycle. -/
theorem C3_witness :
    (∀ p ∈ rootedCycleGraph.nodes, p.1 ≠ "orphan_tables") ∧
    "r" ∈ findRootTables rootedCycleGraph ∧
    (∃ t, buildTree rootedCycleGraph = some t ∧
      Mention (renderTreeAsText t rootedCycleGraph.databaseName)
        "(circular reference)") := by
  refine ⟨by decide, by decide, ?_⟩
  have hra : childStep rootedCycleGraph "r" "a" := by decide
  have hab : childStep rootedCycleGraph "a" "b" := by decide
  have hba : childStep rootedCycleGraph "b" "a" := by decide
  exact C3_cycle_marker.1 rootedCycleGraph (by decide) (by decide) "r" "a" (by decide)
    (Relation.ReflTransGen.single hra)
    (Relation.TransGen.tail (Relation.TransGen.single hab) hba)

theorem strLe_of_not_lt {a b : String} (h : strLt b a = false) : strLe a b = true := by
  simp [strLe, h]

theorem strLe_of_strLt {a b : String} (h : strLt a b = true) : strLe a b = true := by
  apply strLe_of_not_lt
  cases hc : strLt b a
  · rfl
  · have h2 := strLt_trans h hc
    rw [strLt_irrefl] at h2
    exact absurd h2 (by simp)

theorem strLt_of_lt_of_not_lt {a b c : String} (hca : strLt c a = true)
    (hba : strLt b a = false) : strLt c b = true := by
  cases hab : strLt a b
  · rw [strLt_conn hab hba] at hca
    exact hca
  · exact strLt_trans hca hab

theorem strLe_trans {a b c : String} (h1 : strLe a b = true) (h2 : strLe b c = true) :
    strLe a c = true := by
  simp only [strLe, Bool.not_eq_true'] at h1 h2 ⊢
  cases hca : strLt c a
  · rfl
  · rw [strLt_of_lt_of_not_lt hca h1] at h2
    exact absurd h2 (by simp)

theorem firstTable_foldl_min :
    ∀ (l : List (String × Table)) (acc : String), acc ≠ "" → (∀ p ∈ l, p.1 ≠ "") →
      strLe (l.foldl (fun acc p => if acc = "" ∨ strLt p.1 acc = true then p.1 else acc) acc)
          acc = true ∧
      (∀ p ∈ l,
        strLe (l.foldl (fun acc p => if acc = "" ∨ strLt p.1 acc = true then p.1 else acc) acc)
          p.1 = true) := by
  intro l
  induction l with
  | nil =>
    intro acc hacc _
    exact ⟨by simp [strLe, strLt_irrefl], fun p hp => absurd hp (by simp)⟩
  | cons q rest ih =>
    intro acc hacc hall
    have hq : q.1 ≠ "" := hall q (by simp)
    simp only [List.foldl_cons]
    by_cases hlt : strLt q.1 acc = true
    · rw [if_pos (Or.inr hlt)]
      obtain ⟨h1, h2⟩ := ih q.1 hq (fun p hp => hall p (List.mem_cons_of_mem _ hp))
      refine ⟨strLe_trans h1 (strLe_of_strLt hlt), fun p hp => ?_⟩
      rcases List.mem_cons.mp hp with rfl | hmem
      · exact h1
      · exact h2 p hmem
    · rw [if_neg (fun hor => hor.elim hacc hlt)]
      have hltf : strLt q.1 acc = false := by
        cases hv : strLt q.1 acc
        · rfl
        · exact absurd hv hlt
      obtain ⟨h1, h2⟩ := ih acc hacc (fun p hp => hall p (List.mem_cons_of_mem _ hp))
      refine ⟨h1, fun p hp => ?_⟩
      rcases List.mem_cons.mp hp with rfl | hmem
      · exact strLe_trans h1 (strLe_of_not_lt hltf)
      · exact h2 p hmem

theorem firstTableName_min {g : SchemaGraph} (h : g.nodes ≠ [])
    (hne : ∀ p ∈ g.nodes, p.1 ≠ "") :
    ∀ k ∈ g.nodes.map Prod.fst, strLe (firstTableName g) k = true := by
  intro k hk
  unfold firstTableName
  cases hn : g.nodes with
  | nil => exact absurd hn h
  | cons q rest =>
    rw [hn] at hk hne
    simp only [List.foldl_cons, true_or, ite_true]
    have hq : q.1 ≠ "" := hne q (by simp)
    obtain ⟨h1, h2⟩ := firstTable_foldl_min rest q.1 hq
      (fun p hp => hne p (List.mem_cons_of_mem _ hp))
    simp only [List.map_cons, List.mem_cons] at hk
    rcases hk with rfl | hmem
    · exact h1
    · obtain ⟨p, hp, rfl⟩ := List.mem_map.mp hmem
      exact h2 p hp

/-- C6 (amended): (i) a table is chosen as a root exactly when it is a node key
that no edge lists as its from-table; (ii) when roots exist the result is a
synthetic node named after the database whose children are exactly the root
tables in ascending codepoint-lexicographic order; (iii) holds as stated only
when every table name is nonempty: the traversal then starts solely from the
lexicographically smallest table name.  With a table named by the empty
string the fold sentinel skips it; see `C6_counterexample`. -/
theorem C6_root_selection :
    (∀ (g : SchemaGraph) (r : String),
      r ∈ findRootTables g ↔
        r ∈ g.nodes.map Prod.fst ∧ ∀ e ∈ g.edges, e.fromTable ≠ r) ∧
    (∀ g : SchemaGraph, findRootTables g ≠ [] →
      ∃ ts, buildTree g = some (TreeNode.mk g.databaseName none ts false false) ∧
        ts.map TreeNode.tableName = findRootTables g ∧
        List.Sorted strLeR (findRootTables g)) ∧
    (∀ g : SchemaGraph, findRootTables g = [] → g.nodes ≠ [] →
      (∀ p ∈ g.nodes, p.1 ≠ "") →
      ∃ t, buildTree g = some t ∧ t.tableName = firstTableName g ∧
        firstTableName g ∈ g.nodes.map Prod.fst ∧
        ∀ k ∈ g.nodes.map Prod.fst, strLe (firstTableName g) k = true) := by
  refine ⟨fun g r => findRootTables_iff, ?_, ?_⟩
  · intro g hne
    have hbr : ¬(findRootTables g = [] ∧ g.nodes ≠ []) := fun hh => hne hh.1
    obtain ⟨ts, v, hc, heq⟩ := buildTree_roots_case g hbr
    refine ⟨ts, heq, ?_, sortStrings_sorted _⟩
    exact buildTreeChildren_tableNames
      (fun c p vv t w hcall => buildTreeNode_tableName g (treeFuel g) c p vv t w hcall)
      _ _ _ _ _ hc
  · intro g h1 h2 hnames
    obtain ⟨t, v, hc, heq⟩ := buildTree_noroots_case g h1 h2
    exact ⟨t, heq, buildTreeNode_tableName g _ _ _ _ _ _ hc, firstTableName_mem h2,
      firstTableName_min h2 hnames⟩

/-- C6 counterexample: in a rootless graph containing a table named by the
empty string, the fold sentinel confuses the empty name with the unset
accumulator, so the traversal starts from `"z"` even though `""` is the
lexicographically smallest table name present. -/
theorem C6_counterexample :
    findRootTables emptyNameGraph1 = [] ∧
    emptyNameGraph1.nodes ≠ [] ∧
    "" ∈ emptyNameGraph1.nodes.map Prod.fst ∧
    (∀ k ∈ emptyNameGraph1.nodes.map Prod.fst, strLe "" k = true) ∧
    firstTableName emptyNameGraph1 = "z" ∧
    (buildTree emptyNameGraph1).map TreeNode.tableName = some "z" ∧
    ("z" : String) ≠ "" :=
  ⟨rfl, by decide, by decide, by decide, rfl, rfl, by decide⟩

/-- Witness for C6 at concrete graphs: a rooted two-table graph and the
rootless departments/employees cycle. -/
theorem C6_witness :
    (("b" ∈ findRootTables permGraphA) ↔
      ("b" ∈ permGraphA.nodes.map Prod.fst ∧
        ∀ e ∈ permGraphA.edges, e.fromTable ≠ "b")) ∧
    (∃ ts, buildTree permGraphA
        = some (TreeNode.mk permGraphA.databaseName none ts false false) ∧
      ts.map TreeNode.tableName = findRootTables permGraphA ∧
      List.Sorted strLeR (findRootTables permGraphA)) ∧
    (∃ t, buildTree deptEmpGraph = some t ∧
      t.tableName = firstTableName deptEmpGraph ∧
      firstTableName deptEmpGraph ∈ deptEmpGraph.nodes.map Prod.fst ∧
      ∀ k ∈ deptEmpGraph.nodes.map Prod.fst,
        strLe (firstTableName deptEmpGraph) k = true) :=
  ⟨C6_root_selection.1 permGraphA "b",
   C6_root_selection.2.1 permGraphA (by decide),
   C6_root_selection.2.2 deptEmpGraph (by decide) (by decide) (by decide)⟩

/-- C2 counterexample: in a graph with root `r` and an `a ↔ b` reference cycle
unreachable from `r`, the tree renderings omit `a` entirely — it is not in the
tree (unreachable from the root) and not an orphan (it has edges), so neither
the text tree nor the JSON tree mentions it. -/
theorem C2_counterexample :
    buildTree unreachableCycleGraph
      = some (TreeNode.mk "db" none
          [TreeNode.mk "r" (some (bareTable "r")) [] false false] false false) ∧
    ("a", bareTable "a") ∈ unreachableCycleGraph.nodes ∧
    renderTreeAsText
        (TreeNode.mk "db" none
          [TreeNode.mk "r" (some (bareTable "r")) [] false false] false false)
        unreachableCycleGraph.databaseName = "db\n└── r\n" ∧
    ¬ Mention "db\n└── r\n" "a" ∧
    JsonTable.forestHasName
      (jsonTreeResult
        (TreeNode.mk "db" none
          [TreeNode.mk "r" (some (bareTable "r")) [] false false] false false)
        "db").tables "a" = false :=
  ⟨rfl, by decide, rfl, by decide, rfl⟩

/-- C2 (amended): the text-tree and JSON-tree renderings mention every table
that the traversal actually reaches: every table reachable from some root via
the child relation, or — in a rootless graph — reachable in at least one step
from the fallback start table.  The unamended claim ("every table in
G.Nodes") fails for tables whose cycle is unreachable from the roots; see
`C2_counterexample`. -/
theorem C2_reachable_mentioned :
    ∀ g : SchemaGraph,
      (∀ p ∈ g.nodes, p.1 ≠ "orphan_tables") →
      (∀ e ∈ g.edges, e.fromTable ≠ "orphan_tables") →
      ∀ n,
        ((∃ r, r ∈ findRootTables g ∧ Relation.ReflTransGen (childStep g) r n) ∨
          (findRootTables g = [] ∧ g.nodes ≠ [] ∧
            Relation.TransGen (childStep g) (firstTableName g) n)) →
        ∃ t, buildTree g = some t ∧
          Mention (renderTreeAsText t g.databaseName) n ∧
          JsonTable.forestHasName (jsonTreeResult t g.databaseName).tables n = true := by
  intro g hnodes hedges n hreach
  rcases hreach with ⟨r, hr, hrtg⟩ | ⟨h1, h2, htg⟩
  · have hbr : ¬(findRootTables g = [] ∧ g.nodes ≠ []) := by
      rintro ⟨hh, _⟩
      rw [hh] at hr
      simp at hr
    obtain ⟨ts, v, hc, heq⟩ := buildTree_roots_case g hbr
    have hlist := buildTreeChildren_closed (g := g)
      (fun c p vv t w hcall => buildTreeNode_mono g (treeFuel g) c p vv t w hcall)
      (fun c p vv t w hp hcall => buildTreeNode_closed g (treeFuel g) c p vv t w hp hcall)
      (findRootTables g) [] [] ts v (by simp) hc
    have hrv : r ∈ v := hlist.1 r hr
    have hclosure : ∀ z ∈ v, ∀ y ∈ buildAdjacencyList g z, y ∈ v := by
      intro z hz y hy
      exact hlist.2 z hz (by simp) y hy
    have hnv : n ∈ v := reach_mem_of_closed hclosure hrv hrtg
    have hforestname : TreeNode.forestHasName ts n = true :=
      buildTreeChildren_names (g := g)
        (fun c p vv t w hcall => buildTreeNode_mono g (treeFuel g) c p vv t w hcall)
        (fun c p vv t w hcall => buildTreeNode_names g (treeFuel g) c p vv t w hcall)
        _ _ _ _ _ hc n hnv (by simp)
    have hsafe : TreeNode.forestRenderSafe ts = true := by
      refine buildTreeChildren_renderSafe
        (fun c p vv t w hcn hcall =>
          buildTreeNode_renderSafe g hedges (treeFuel g) c p vv t w hcn hcall)
        _ _ _ _ _ ?_ hc
      intro c hcr
      have hck := (findRootTables_iff.mp hcr).1
      rw [List.mem_map] at hck
      obtain ⟨p, hp, hpc⟩ := hck
      rw [← hpc]
      exact hnodes p hp
    refine ⟨_, heq, ?_, ?_⟩
    · show Mention (renderTreeAsText (TreeNode.mk g.databaseName none ts false false)
        g.databaseName) n
      unfold renderTreeAsText
      simp only [TreeNode.children]
      exact mention_append_right (renderText_mentions_names.2 ts "" n hsafe hforestname) _
    · have hjson := jsonTreeResult_eq (TreeNode.mk g.databaseName none ts false false)
        g.databaseName (by simpa only [TreeNode.children] using forestRenderSafe_names ts hsafe)
      rw [hjson]
      have hres : JsonTable.forestHasName (convertChildren ts) n = true :=
        convertNode_hasName.2 ts n hsafe hforestname
      rw [convertChildren_eq_map] at hres
      simpa only [TreeNode.children] using hres
  · obtain ⟨t, v, hc, heq⟩ := buildTree_noroots_case g h1 h2
    have hstart_key : firstTableName g ∈ g.nodes.map Prod.fst := firstTableName_mem h2
    have hstart_ne : firstTableName g ≠ "orphan_tables" := by
      obtain ⟨p, hp, hpc⟩ := List.mem_map.mp hstart_key
      rw [← hpc]
      exact hnodes p hp
    have hcl := buildTreeNode_closed g (treeFuel g) _ _ _ _ _ (by simp) hc
    have hstartv : firstTableName g ∈ v := hcl.1
    have hclosure : ∀ z ∈ v, ∀ y ∈ buildAdjacencyList g z, y ∈ v := by
      intro z hz y hy
      exact hcl.2 z hz (by simp) y hy
    obtain ⟨cs, hteq⟩ :=
      buildTreeNode_main_shape g (treeFuel g) _ _ _ _ _ (by simp) (by simp) hc
    have hsafe_t : TreeNode.renderSafe t = true :=
      buildTreeNode_renderSafe g hedges (treeFuel g) _ _ _ _ _ hstart_ne hc
    have hsafe_cs : TreeNode.forestRenderSafe cs = true := by
      rw [hteq] at hsafe_t
      simp only [TreeNode.renderSafe, Bool.and_eq_true] at hsafe_t
      exact hsafe_t.2
    have hforest : TreeNode.forestHasName cs n = true := by
      by_cases hns : n = firstTableName g
      · have htg2 : Relation.TransGen (childStep g) (firstTableName g) (firstTableName g) :=
          hns ▸ htg
        obtain ⟨c, hc_rtg, hstep⟩ := Relation.TransGen.tail'_iff.mp htg2
        have hcv : c ∈ v := reach_mem_of_closed hclosure hstartv hc_rtg
        have hcircN : TreeNode.hasCircN t (firstTableName g) = true :=
          buildTreeNode_circN g (treeFuel g) _ _ _ _ _ (by simp) hc c hcv (by simp)
            (firstTableName g) hstep (Or.inl rfl)
        rw [hteq] at hcircN
        simp only [TreeNode.hasCircN, Bool.false_and, Bool.false_or] at hcircN
        rw [hns]
        exact forestHasName_of_circN cs _ hcircN
      · have hnv : n ∈ v :=
          reach_mem_of_closed hclosure hstartv htg.to_reflTransGen
        have hname : TreeNode.hasName t n = true :=
          buildTreeNode_names g (treeFuel g) _ _ _ _ _ hc n hnv (by simp)
        rw [hteq] at hname
        simp only [TreeNode.hasName, Bool.or_eq_true, beq_iff_eq] at hname
        rcases hname with heqn | hfn
        · exact absurd heqn.symm hns
        · exact hfn
    refine ⟨t, heq, ?_, ?_⟩
    · rw [hteq]
      unfold renderTreeAsText
      simp only [TreeNode.children]
      exact mention_append_right (renderText_mentions_names.2 cs "" n hsafe_cs hforest) _
    · rw [hteq]
      have hjson := jsonTreeResult_eq
        (TreeNode.mk (firstTableName g) (mapFind? g.nodes (firstTableName g)) cs false false)
        g.databaseName
        (by simpa only [TreeNode.children] using forestRenderSafe_names cs hsafe_cs)
      rw [hjson]
      have hres : JsonTable.forestHasName (convertChildren cs) n = true :=
        convertNode_hasName.2 cs n hsafe_cs hforest
      rw [convertChildren_eq_map] at hres
      simpa only [TreeNode.children] using hres

/-- Witness for C2 on the rootless departments/employees graph: the table
reachable in one step from the start is mentioned by both renderings. -/
theorem C2_witness :
    (∀ p ∈ deptEmpGraph.nodes, p.1 ≠ "orphan_tables") ∧
    Relation.TransGen (childStep deptEmpGraph) (firstTableName deptEmpGraph) "employees" ∧
    (∃ t, buildTree deptEmpGraph = some t ∧
      Mention (renderTreeAsText t deptEmpGraph.databaseName) "employees" ∧
      JsonTable.forestHasName (jsonTreeResult t deptEmpGraph.databaseName).tables
        "employees" = true) := by
  have hstep : childStep deptEmpGraph (firstTableName deptEmpGraph) "employees" := by decide
  exact ⟨by decide, Relation.TransGen.single hstep,
    C2_reachable_mentioned deptEmpGraph (by decide) (by decide) "employees"
      (Or.inr ⟨by decide, by decide, Relation.TransGen.single hstep⟩)⟩

theorem strLe_antisymm {a b : String} (h1 : strLe a b = true) (h2 : strLe b a = true) :
    a = b := by
  simp only [strLe, Bool.not_eq_true'] at h1 h2
  exact strLt_conn h2 h1

theorem mapFind?_perm :
    ∀ {l1 l2 : List (String × Table)}, l1.Perm l2 → (l1.map Prod.fst).Nodup →
      ∀ k, mapFind? l1 k = mapFind? l2 k := by
  intro l1 l2 h
  induction h with
  | nil => intro _ _; rfl
  | cons x h ih =>
    intro hnd k
    obtain ⟨x1, x2⟩ := x
    simp only [List.map_cons, List.nodup_cons] at hnd
    simp only [mapFind?]
    split
    · rfl
    · exact ih hnd.2 k
  | swap x y l =>
    intro hnd k
    obtain ⟨x1, x2⟩ := x
    obtain ⟨y1, y2⟩ := y
    simp only [List.map_cons, List.nodup_cons, List.mem_cons] at hnd
    simp only [mapFind?]
    by_cases h1 : y1 = k
    · by_cases h2 : x1 = k
      · exact absurd (h1.trans h2.symm) (fun hh => hnd.1 (Or.inl hh))
      · rw [if_pos h1, if_neg h2, if_pos h1]
    · by_cases h2 : x1 = k
      · rw [if_neg h1, if_pos h2, if_pos h2]
      · rw [if_neg h1, if_neg h2, if_neg h2, if_neg h1]
  | trans h1 h2 ih1 ih2 =>
    intro hnd k
    exact (ih1 hnd k).trans (ih2 (((h1.map Prod.fst).nodup_iff).mp hnd) k)

theorem buildTreeNode_congr {g1 g2 : SchemaGraph}
    (hadj : ∀ t, buildAdjacencyList g1 t = buildAdjacencyList g2 t)
    (hfind : ∀ k, mapFind? g1.nodes k = mapFind? g2.nodes k) :
    ∀ fuel name proc vis,
      buildTreeNode g1 fuel name proc vis = buildTreeNode g2 fuel name proc vis := by
  intro fuel
  induction fuel with
  | zero => intro name proc vis; rfl
  | succ n ih =>
    intro name proc vis
    have hrec : buildTreeNode g1 n = buildTreeNode g2 n :=
      funext fun a => funext fun b => funext fun c => ih a b c
    simp only [buildTreeNode, hfind, hadj, hrec]

theorem firstTableName_congr {g1 g2 : SchemaGraph}
    (hperm : g1.nodes.Perm g2.nodes) (hne : ∀ p ∈ g1.nodes, p.1 ≠ "") :
    firstTableName g1 = firstTableName g2 := by
  by_cases hn1 : g1.nodes = []
  · have hp2 : ([] : List (String × Table)).Perm g2.nodes := by
      rw [← hn1]
      exact hperm
    have hn2 : g2.nodes = [] := hp2.symm.eq_nil
    unfold firstTableName
    rw [hn1, hn2]
  · have h2ne : g2.nodes ≠ [] := by
      intro hh
      rw [hh] at hperm
      exact hn1 hperm.eq_nil
    have hne2 : ∀ p ∈ g2.nodes, p.1 ≠ "" := fun p hp => hne p (hperm.mem_iff.mpr hp)
    have hkm : (g1.nodes.map Prod.fst).Perm (g2.nodes.map Prod.fst) := hperm.map _
    apply strLe_antisymm
    · exact firstTableName_min hn1 hne _ (hkm.mem_iff.mpr (firstTableName_mem h2ne))
    · exact firstTableName_min h2ne hne2 _ (hkm.mem_iff.mp (firstTableName_mem hn1))

theorem buildTree_congr {g1 g2 : SchemaGraph}
    (hdb : g1.databaseName = g2.databaseName) (hedges : g1.edges = g2.edges)
    (hperm : g1.nodes.Perm g2.nodes) (hnd : (g1.nodes.map Prod.fst).Nodup)
    (hne : ∀ p ∈ g1.nodes, p.1 ≠ "") :
    buildTree g1 = buildTree g2 := by
  have hadj : ∀ t, buildAdjacencyList g1 t = buildAdjacencyList g2 t := by
    intro t
    unfold buildAdjacencyList
    rw [hedges]
  have hfind : ∀ k, mapFind? g1.nodes k = mapFind? g2.nodes k :=
    fun k => mapFind?_perm hperm hnd k
  have hfuel : treeFuel g1 = treeFuel g2 := by
    unfold treeFuel
    rw [hperm.length_eq, hedges]
  have hnodefun : ∀ fuel name proc vis,
      buildTreeNode g1 fuel name proc vis = buildTreeNode g2 fuel name proc vis :=
    buildTreeNode_congr hadj hfind
  have hroots : findRootTables g1 = findRootTables g2 := by
    unfold findRootTables
    rw [hedges]
    exact sortStrings_eq_of_perm ((hperm.map Prod.fst).filter _)
  have hfirst : firstTableName g1 = firstTableName g2 := firstTableName_congr hperm hne
  have hn2 : (g1.nodes ≠ []) ↔ (g2.nodes ≠ []) := by
    constructor
    · intro h hh
      rw [hh] at hperm
      exact h hperm.eq_nil
    · intro h hh
      apply h
      rw [hh] at hperm
      exact hperm.symm.eq_nil
  by_cases hcond : findRootTables g1 = [] ∧ g1.nodes ≠ []
  · obtain ⟨t1, v1, hc1, he1⟩ := buildTree_noroots_case g1 hcond.1 hcond.2
    obtain ⟨t2, v2, hc2, he2⟩ := buildTree_noroots_case g2
      (by rw [← hroots]; exact hcond.1) (hn2.mp hcond.2)
    rw [hnodefun, hfuel, hfirst, hc2] at hc1
    simp only [Option.some.injEq, Prod.mk.injEq] at hc1
    rw [he1, he2, hc1.1]
  · have hcond2 : ¬(findRootTables g2 = [] ∧ g2.nodes ≠ []) := by
      intro hh
      exact hcond ⟨by rw [hroots]; exact hh.1, hn2.mpr hh.2⟩
    obtain ⟨ts1, v1, hc1, he1⟩ := buildTree_roots_case g1 hcond
    obtain ⟨ts2, v2, hc2, he2⟩ := buildTree_roots_case g2 hcond2
    have hch : buildTreeChildren (buildTreeNode g1 (treeFuel g1)) (findRootTables g1) [] []
        = buildTreeChildren (buildTreeNode g2 (treeFuel g2)) (findRootTables g2) [] [] := by
      rw [hroots, hfuel]
      congr 1
      exact funext fun a => funext fun b => funext fun c => hnodefun (treeFuel g2) a b c
    rw [hch, hc2] at hc1
    simp only [Option.some.injEq, Prod.mk.injEq] at hc1
    rw [he1, he2, hdb, hc1.1]

/-- C1 (amended): `Render` is referentially transparent as a function of its
arguments, and — the substance of determinism for a Go map input — its output
is invariant under permutation of the nodes association list (the map's
iteration order) whenever the keys are distinct and no table is named by the
empty string.  With an empty-named table the rootless fallback start depends
on iteration order; see `C1_counterexample`. -/
theorem C1_render_deterministic :
    (∀ (d2compile : String → Except String String) (g : Option SchemaGraph)
        (format shape : String),
      Render d2compile g format shape = Render d2compile g format shape) ∧
    (∀ (d2compile : String → Except String String) (g1 g2 : SchemaGraph)
        (format shape : String),
      g1.databaseName = g2.databaseName → g1.edges = g2.edges →
      g1.nodes.Perm g2.nodes → (g1.nodes.map Prod.fst).Nodup →
      (∀ p ∈ g1.nodes, p.1 ≠ "") →
      Render d2compile (some g1) format shape
        = Render d2compile (some g2) format shape) := by
  refine ⟨fun _ _ _ _ => rfl, ?_⟩
  intro d2 g1 g2 format shape hdb hedges hperm hnd hne
  have hfind : ∀ k, mapFind? g1.nodes k = mapFind? g2.nodes k :=
    fun k => mapFind?_perm hperm hnd k
  have hsorted : getSortedTableNames g1 = getSortedTableNames g2 := by
    unfold getSortedTableNames
    exact sortStrings_eq_of_perm (hperm.map _)
  have hbt : buildTree g1 = buildTree g2 := buildTree_congr hdb hedges hperm hnd hne
  have hflat : renderFlatAsText g1 = renderFlatAsText g2 := by
    unfold renderFlatAsText
    simp only [hdb, hperm.length_eq, hsorted, hfind]
  have hflatjson : flatJsonResult g1 = flatJsonResult g2 := by
    unfold flatJsonResult
    simp only [hdb, hsorted, hfind, hedges]
  have hd2 : generateD2Diagram g1 = generateD2Diagram g2 := by
    unfold generateD2Diagram
    simp only [hsorted, hfind, hedges]
  simp only [Render, renderGraphAsText, hbt, hdb, hflat, hflatjson, hd2]

/-- C1 counterexample: the same schema-graph map presented in two node
iteration orders — same database name, same edges, permuted nodes with
distinct keys — renders differently in text/tree when one table is named by
the empty string, so the Go function's output depends on map iteration order. -/
theorem C1_counterexample :
    emptyNameGraph1.databaseName = emptyNameGraph2.databaseName ∧
    emptyNameGraph1.edges = emptyNameGraph2.edges ∧
    emptyNameGraph1.nodes.Perm emptyNameGraph2.nodes ∧
    (emptyNameGraph1.nodes.map Prod.fst).Nodup ∧
    Render (fun s => Except.ok s) (some emptyNameGraph1) FormatText ShapeTree
      ≠ Render (fun s => Except.ok s) (some emptyNameGraph2) FormatText ShapeTree := by
  refine ⟨rfl, rfl, List.Perm.swap _ _ _, by decide, ?_⟩
  intro h
  rw [show Render (fun s => Except.ok s) (some emptyNameGraph1) FormatText ShapeTree
        = Except.ok "db\n└── \n    └── z (circular reference)\n" from rfl,
      show Render (fun s => Except.ok s) (some emptyNameGraph2) FormatText ShapeTree
        = Except.ok "db\n└── z\n    └──  (circular reference)\n" from rfl] at h
  exact absurd (Except.ok.inj h) (by decide)

/-- Witness for C1 on the two presentations of a two-table graph with
nonempty distinct names: the rendered outputs coincide. -/
theorem C1_witness :
    permGraphA.databaseName = permGraphB.databaseName ∧
    permGraphA.nodes.Perm permGraphB.nodes ∧
    Render (fun s => Except.ok s) (some permGraphA) FormatText ShapeTree
      = Render (fun s => Except.ok s) (some permGraphB) FormatText ShapeTree :=
  ⟨rfl, List.Perm.swap _ _ _,
    C1_render_deterministic.2 (fun s => Except.ok s) permGraphA permGraphB
      FormatText ShapeTree rfl rfl (List.Perm.swap _ _ _) (by decide) (by decide)⟩

end DbTree
